import Mathlib

/-!
Verification of the `gitnot` change-tracking tool (src/gitnot.py) against its
natural-language specification.  The Python source is shallowly embedded:
Python dicts become association lists with distinct keys, file contents become
strings or byte lists, machine floats (used by the version counter) become
exact rationals rounded with an explicit binary64 round-to-nearest-even model,
and the stateful `update_gitnot` commit path becomes a pure state-transition
function with an explicit I/O-failure oracle.
-/

set_option maxHeartbeats 1000000

namespace Gitnot

/-! ## Association lists standing for Python dicts

`hashes.json`, the snapshot tree, and changelogs are Python dicts / directory
maps; we embed them as `List (String × String)` and access them with `lk`,
which mirrors dict lookup (Python dict keys are unique, so lookups are
unambiguous whenever the key list is `Nodup`). -/

/-- Dict lookup: first value bound to key `p` (Python `d[p]` / `p in d`). -/
def lk (p : String) : List (String × String) → Option String
  | [] => none
  | (q, v) :: t => if q = p then some v else lk p t

/-- Dict write `d[p] = v` semantics on an association list: replace the first
binding of `p`, or append a fresh binding. -/
def setA (p v : String) : List (String × String) → List (String × String)
  | [] => [(p, v)]
  | (q, w) :: t => if q = p then (p, v) :: t else (q, w) :: setA p v t

/-- Deletion of a key (used for `shutil.move` out of the snapshot tree). -/
def eraseA (p : String) (l : List (String × String)) : List (String × String) :=
  l.filter (fun qv => qv.1 ≠ p)

/-! ## Delta Detector (src/gitnot.py, update_gitnot lines 248–298)

`update_gitnot` iterates `current_hashes.items()` and classifies each path:
not in `old_hashes` → new file; differing digest → modified; then iterates
`old_hashes` and classifies paths absent from `current_hashes` as deleted.
The four functions below are that classification, as pure functions of the
two maps. -/

/-- Paths the committing update treats as added:
`rel_path not in old_hashes` while iterating `current_hashes.items()`. -/
def addedOf (old cur : List (String × String)) : List String :=
  (cur.filter (fun pc => (lk pc.1 old).isNone)).map Prod.fst

/-- Paths the committing update treats as modified:
`rel_path in old_hashes and old_hashes[rel_path] != new_hash`. -/
def modifiedOf (old cur : List (String × String)) : List String :=
  (cur.filter (fun pc =>
    match lk pc.1 old with
    | some g => g != pc.2
    | none => false)).map Prod.fst

/-- Paths the committing update treats as deleted:
`rel_path in old_hashes` with `rel_path not in current_hashes`. -/
def deletedOf (old cur : List (String × String)) : List String :=
  (old.filter (fun pg => (lk pg.1 cur).isNone)).map Prod.fst

/-- Paths present in both maps with equal digests (no action taken). -/
def unchangedOf (old cur : List (String × String)) : List String :=
  (cur.filter (fun pc => lk pc.1 old == some pc.2)).map Prod.fst

/-! ## The read-only status query (src/gitnot.py, show_status lines 374–376)

`show_status` recomputes the classification with list comprehensions over the
dict keys, indexing `current_hashes[f]` instead of using the iterated value. -/

/-- `new_files = [f for f in current_hashes if f not in old_hashes]` -/
def new_files (old cur : List (String × String)) : List String :=
  (cur.map Prod.fst).filter (fun f => (lk f old).isNone)

/-- `changed_files = [f for f in current_hashes
      if f in old_hashes and old_hashes[f] != current_hashes[f]]` -/
def changed_files (old cur : List (String × String)) : List String :=
  (cur.map Prod.fst).filter (fun f =>
    match lk f old with
    | some g =>
      match lk f cur with
      | some h => g != h
      | none => false
    | none => false)

/-- `deleted_files = [f for f in old_hashes if f not in current_hashes]` -/
def deleted_files (old cur : List (String × String)) : List String :=
  (old.map Prod.fst).filter (fun f => (lk f cur).isNone)

/-! ## HashIndex loading (src/gitnot.py, load_json lines 91–99)

`load_json` returns `{}` when the file is absent, and catches
`json.JSONDecodeError` / `UnicodeDecodeError` to return `{}` when the file
exists but cannot be parsed.  The three observable situations are embedded as
an inductive. -/

/-- State of the `hashes.json` file on disk as `load_json` can observe it. -/
inductive JsonFile where
  | absent : JsonFile
  | unparsable : JsonFile
  | parsed : List (String × String) → JsonFile

/-- `load_json`: absent file → `{}`; parse failure → `{}`; otherwise the
parsed mapping. -/
def load_json : JsonFile → List (String × String)
  | .absent => []
  | .unparsable => []
  | .parsed m => m

/-- Concrete old HashIndex used by witnesses. -/
def oldW : List (String × String) := [("a.txt", "1"), ("c.txt", "9")]

/-- Concrete current hash map used by witnesses. -/
def curW : List (String × String) := [("a.txt", "2"), ("b.txt", "3")]

/-! ## String helpers mirroring the Python str methods the tool uses

Python's `str.strip`/`rstrip` with no argument remove runs of whitespace; we
model the ASCII whitespace characters (space, tab, newline, carriage return,
vertical tab, form feed), which covers every string the tool manipulates. -/

/-- ASCII whitespace, as recognised by Python `str.strip()` and friends. -/
def isPySpace (c : Char) : Bool :=
  c = ' ' || c = '\t' || c = '\n' || c = '\r' || c = '\x0b' || c = '\x0c'

/-- Python `s.startswith(pre)`. -/
def pyStartsWith (s pre : String) : Bool :=
  pre.toList.isPrefixOf s.toList

/-- Python `s.rstrip()`. -/
def pyRstrip (s : String) : String :=
  String.mk ((s.toList.reverse.dropWhile isPySpace).reverse)

/-- Python `s.strip()`. -/
def pyStrip (s : String) : String :=
  String.mk (((s.toList.dropWhile isPySpace).reverse.dropWhile isPySpace).reverse)

/-- Python `s[1:]`. -/
def drop1 (s : String) : String :=
  String.mk (s.toList.drop 1)

/-- Accumulator for whitespace splitting. -/
def wordsAux : List Char → List Char → List (List Char)
  | [], acc => if acc.isEmpty then [] else [acc.reverse]
  | c :: t, acc =>
    if isPySpace c then
      if acc.isEmpty then wordsAux t [] else acc.reverse :: wordsAux t []
    else wordsAux t (c :: acc)

/-- Python `s.split()` with no arguments: split on whitespace runs, dropping
empty pieces. -/
def pySplitWs (s : String) : List String :=
  (wordsAux s.toList []).map String.mk

/-- Python `s.split(',')[0]`: everything before the first comma. -/
def takeBeforeComma (s : String) : String :=
  String.mk (s.toList.takeWhile (fun c => c ≠ ','))

/-- ASCII decimal digit test (Python's parsers accept exactly these in the
strings the tool handles). -/
def isDig (c : Char) : Bool :=
  c = '0' || c = '1' || c = '2' || c = '3' || c = '4' ||
  c = '5' || c = '6' || c = '7' || c = '8' || c = '9'

/-- Value of a decimal digit character. -/
def digVal (c : Char) : ℕ := c.toNat - 48

/-- Digit-run parser for Python `int()`: decimal digits with single
underscores allowed between digits (`int("1_0") = 10`, `int("1__0")` and
`int("_1")`/`int("1_")` raise). -/
def pyIntDigits : Bool → ℕ → List Char → Option ℕ
  | seen, acc, [] => if seen then some acc else none
  | seen, acc, c :: t =>
    if isDig c then pyIntDigits true (acc * 10 + digVal c) t
    else if c = '_' then
      if seen then
        match t with
        | d :: t2 => if isDig d then pyIntDigits true (acc * 10 + digVal d) t2 else none
        | [] => none
      else none
    else none

/-- Python `int(s)` for base-10 string literals: strip whitespace, optional
sign, then digits (ASCII digits; a `ValueError` is `none`). -/
def pyInt (s : String) : Option Int :=
  match (pyStrip s).toList with
  | '-' :: t => (pyIntDigits false 0 t).map (fun n => -(n : Int))
  | '+' :: t => (pyIntDigits false 0 t).map (fun n => (n : Int))
  | t => (pyIntDigits false 0 t).map (fun n => (n : Int))

/-- Decimal digit character for `n % 10`. -/
def digitChar (n : ℕ) : Char :=
  match n % 10 with
  | 0 => '0' | 1 => '1' | 2 => '2' | 3 => '3' | 4 => '4'
  | 5 => '5' | 6 => '6' | 7 => '7' | 8 => '8' | _ => '9'

/-- Decimal digits of `n`, most significant first (fuel-structured so the
kernel can evaluate it; `natStr` supplies sufficient fuel). -/
def natDigitsF : ℕ → ℕ → List Char
  | 0, _ => []
  | fuel + 1, n => if n < 10 then [digitChar n] else natDigitsF fuel (n / 10) ++ [digitChar n]

/-- Python `str(n)` for a natural number. -/
def natStr (n : ℕ) : String := String.mk (natDigitsF (n + 1) n)

/-- Python `str(i)` for an integer. -/
def intStr (i : Int) : String :=
  if i < 0 then "-" ++ natStr (-i).toNat else natStr i.toNat

/-! ## Diff Renderer (src/gitnot.py, format_diff_as_markdown lines 135–192)

The `while` loop of `format_diff_as_markdown` becomes structural recursion on
the list of diff lines, carrying the `add`/`remove` accumulators and the two
running line counters (Python ints, so `Int`). -/

/-- Loop state of `format_diff_as_markdown`. -/
structure DiffSt where
  add : List String
  remove : List String
  old_ln : Int
  new_ln : Int
deriving DecidableEq

/-- Initial loop state: `output, add, remove = [], [], []`, `old_ln = new_ln = 0`. -/
def initDiffSt : DiffSt := ⟨[], [], 0, 0⟩

/-- Hunk-header handling (lines 149–158): with at least three
whitespace-separated fields, parse `parts[1].split(',')[0][1:]` and
`parts[2].split(',')[0][1:]`; on `ValueError`/`IndexError` both counters
become 0; with fewer than three fields the counters are left unchanged. -/
def hunkApply (line : String) (st : DiffSt) : DiffSt :=
  match pySplitWs line with
  | _ :: p1 :: p2 :: _ =>
    match pyInt (drop1 (takeBeforeComma p1)), pyInt (drop1 (takeBeforeComma p2)) with
    | some a, some c => { st with old_ln := a, new_ln := c }
    | _, _ => { st with old_ln := 0, new_ln := 0 }
  | _ => st

/-- One non-hunk, non-paired line (lines 170–181). -/
def stepOne (line : String) (st : DiffSt) : DiffSt :=
  if pyStartsWith line "-" && !pyStartsWith line "---" then
    { st with
      remove := st.remove ++ ["L" ++ intStr st.old_ln ++ ": " ++ pyRstrip (drop1 line)],
      old_ln := st.old_ln + 1 }
  else if pyStartsWith line "+" && !pyStartsWith line "+++" then
    { st with
      add := st.add ++ ["L" ++ intStr st.new_ln ++ ": " ++ pyRstrip (drop1 line)],
      new_ln := st.new_ln + 1 }
  else if pyStartsWith line "\\" then st
  else { st with old_ln := st.old_ln + 1, new_ln := st.new_ln + 1 }

/-- Look-ahead condition of lines 161–163: a removed line immediately
followed by an added line equal after `rstrip` of the text past the marker. -/
def pairCond (l r : String) : Bool :=
  pyStartsWith l "-" && pyStartsWith r "+" && (pyRstrip (drop1 l) == pyRstrip (drop1 r))

/-- The `while i < len(diff_lines)` loop of `format_diff_as_markdown`. -/
def fmtLoop : List String → DiffSt → DiffSt
  | [], st => st
  | [line], st =>
    if pyStartsWith line "@@" then hunkApply line st else stepOne line st
  | line :: next :: rest, st =>
    if pyStartsWith line "@@" then fmtLoop (next :: rest) (hunkApply line st)
    else if pairCond line next then
      fmtLoop rest { st with old_ln := st.old_ln + 1, new_ln := st.new_ln + 1 }
    else fmtLoop (next :: rest) (stepOne line st)

/-- Python `"\n".join(l)`. -/
def joinNL : List String → String
  | [] => ""
  | [s] => s
  | s :: rest => s ++ "\n" ++ joinNL rest

/-- Final rendering (lines 183–192): Added section, then Removed section. -/
def renderDiff (st : DiffSt) : String :=
  joinNL ((if st.add.isEmpty then [] else "### ➕ Added" :: st.add ++ [""]) ++
          (if st.remove.isEmpty then [] else "### ➖ Removed" :: st.remove ++ [""]))

/-- `format_diff_as_markdown(diff_lines)`. -/
def format_diff_as_markdown (diff_lines : List String) : String :=
  renderDiff (fmtLoop diff_lines initDiffSt)

/-- The Added and Removed entry lists the renderer would emit. -/
def diffLists (diff_lines : List String) : List String × List String :=
  ((fmtLoop diff_lines initDiffSt).add, (fmtLoop diff_lines initDiffSt).remove)

/-- Output of `difflib.unified_diff(["a\n","b\n"], ["a\n","b\r\n"],
fromfile='before', tofile='after', lineterm='')` — the concrete diff the spec
uses for its trailing-whitespace example (`difflib` is Python stdlib; its
output on these two-line inputs is the file headers, one hunk header, the
common first line, and the changed second line). -/
def diffABCRLF : List String :=
  ["--- before", "+++ after", "@@ -1,2 +1,2 @@", " a\n", "-b\n", "+b\r\n"]

/-! ## Content Hasher (src/gitnot.py, hash_file lines 79–89)

`hash_file` streams the file in 8192-byte chunks into `hashlib.sha1` and
returns `hexdigest()`; incremental SHA-1 updates over consecutive chunks of a
byte stream hash exactly the concatenated stream, so the embedding applies
SHA-1 to the file's full byte content.  On `OSError`/`IOError` it returns the
sentinel `"unreadable-" + basename(file_path)`.  SHA-1 itself is implemented
below on `ℕ` with explicit `% 2^32` reductions. -/

/-- `2^32`, the word modulus of SHA-1. -/
def M32 : ℕ := 4294967296

/-- 32-bit left rotation. -/
def rotl (k x : ℕ) : ℕ :=
  (((x % M32) <<< k) % M32) ||| ((x % M32) >>> (32 - k))

/-- 32-bit complement. -/
def notB (b : ℕ) : ℕ := (M32 - 1) - (b % M32)

/-- Big-endian 32-bit word from four bytes. -/
def wordOf (b0 b1 b2 b3 : ℕ) : ℕ :=
  ((b0 % 256) <<< 24) + ((b1 % 256) <<< 16) + ((b2 % 256) <<< 8) + (b3 % 256)

/-- Split a padded message into 64-byte blocks (fuel-structured so the kernel
can evaluate it; callers pass more fuel than blocks). -/
def chunks64 : ℕ → List ℕ → List (List ℕ)
  | _, [] => []
  | 0, l => [l]
  | fuel + 1, l => l.take 64 :: chunks64 fuel (l.drop 64)

/-- The sixteen 32-bit words of one 64-byte block. -/
def blockWords : List ℕ → List ℕ
  | b0 :: b1 :: b2 :: b3 :: rest => wordOf b0 b1 b2 b3 :: blockWords rest
  | _ => []

/-- Message-schedule extension: prepend `w[i] = rotl1 (w[i-3] ^ w[i-8] ^
w[i-14] ^ w[i-16])` to the reversed word list, `n` times. -/
def extendRounds : ℕ → List ℕ → List ℕ
  | 0, rws => rws
  | n + 1, rws =>
    let w := rotl 1 (Nat.xor (Nat.xor (rws.getD 2 0) (rws.getD 7 0))
                             (Nat.xor (rws.getD 13 0) (rws.getD 15 0)))
    extendRounds n (w :: rws)

/-- The eighty schedule words of one block. -/
def w80 (block : List ℕ) : List ℕ :=
  (extendRounds 64 (blockWords block).reverse).reverse

/-- Round function and constant for round `i`. -/
def fK (i b c d : ℕ) : ℕ × ℕ :=
  if i < 20 then (((b &&& c) ||| (notB b &&& d)) % M32, 1518500249)
  else if i < 40 then (Nat.xor (Nat.xor b c) d, 1859775393)
  else if i < 60 then (((b &&& c) ||| (b &&& d) ||| (c &&& d)) % M32, 2400959708)
  else (Nat.xor (Nat.xor b c) d, 3395469782)

/-- One SHA-1 round. -/
def sha1Step (i w : ℕ) (st : ℕ × ℕ × ℕ × ℕ × ℕ) : ℕ × ℕ × ℕ × ℕ × ℕ :=
  let fk := fK i st.2.1 st.2.2.1 st.2.2.2.1
  let temp := (rotl 5 st.1 + fk.1 + st.2.2.2.2 + fk.2 + w) % M32
  (temp, st.1, rotl 30 st.2.1, st.2.2.1, st.2.2.2.1)

/-- The eighty rounds over the schedule words. -/
def sha1Rounds : ℕ → List ℕ → ℕ × ℕ × ℕ × ℕ × ℕ → ℕ × ℕ × ℕ × ℕ × ℕ
  | _, [], st => st
  | i, w :: ws, st => sha1Rounds (i + 1) ws (sha1Step i w st)

/-- Compression of one 64-byte block into the running state. -/
def sha1Block (hs : ℕ × ℕ × ℕ × ℕ × ℕ) (block : List ℕ) : ℕ × ℕ × ℕ × ℕ × ℕ :=
  let r := sha1Rounds 0 (w80 block) hs
  ((hs.1 + r.1) % M32, (hs.2.1 + r.2.1) % M32, (hs.2.2.1 + r.2.2.1) % M32,
   (hs.2.2.2.1 + r.2.2.2.1) % M32, (hs.2.2.2.2 + r.2.2.2.2) % M32)

/-- Big-endian 64-bit length field. -/
def bigEndian8 (n : ℕ) : List ℕ :=
  [(n >>> 56) % 256, (n >>> 48) % 256, (n >>> 40) % 256, (n >>> 32) % 256,
   (n >>> 24) % 256, (n >>> 16) % 256, (n >>> 8) % 256, n % 256]

/-- SHA-1 padding: `0x80`, zeros to 56 mod 64, then the bit length. -/
def sha1Pad (msg : List ℕ) : List ℕ :=
  msg ++ [128] ++ List.replicate ((120 - (msg.length + 1) % 64) % 64) 0 ++
    bigEndian8 ((8 * msg.length) % 2 ^ 64)

/-- Lower-case hexadecimal digit. -/
def hexChar (n : ℕ) : Char := if n < 10 then Char.ofNat (48 + n) else Char.ofNat (87 + n)

/-- Eight hex digits of a 32-bit word. -/
def toHex8 (x : ℕ) : List Char :=
  [hexChar ((x >>> 28) % 16), hexChar ((x >>> 24) % 16), hexChar ((x >>> 20) % 16),
   hexChar ((x >>> 16) % 16), hexChar ((x >>> 12) % 16), hexChar ((x >>> 8) % 16),
   hexChar ((x >>> 4) % 16), hexChar (x % 16)]

/-- `hashlib.sha1(content).hexdigest()`. -/
def sha1hex (msg : List ℕ) : String :=
  let padded := sha1Pad msg
  let hs := (chunks64 (padded.length + 1) padded).foldl sha1Block
    (1732584193, 4023233417, 2562383102, 271733878, 3285377520)
  String.mk (toHex8 hs.1 ++ toHex8 hs.2.1 ++ toHex8 hs.2.2.1 ++
             toHex8 hs.2.2.2.1 ++ toHex8 hs.2.2.2.2)

/-- The file system as `hash_file` observes it: byte content per path, or
`none` when opening/reading raises `OSError`/`IOError`. -/
structure FS where
  read : String → Option (List ℕ)

/-- `os.path.basename`: the part after the last `/`. -/
def basenameStr (p : String) : String :=
  String.mk ((p.toList.reverse.takeWhile (fun c => c ≠ '/')).reverse)

/-- `hash_file(file_path)`: SHA-1 hex digest of the content, or the
deterministic sentinel for unreadable files. -/
def hash_file (fs : FS) (p : String) : String :=
  match fs.read p with
  | some content => sha1hex content
  | none => "unreadable-" ++ basenameStr p

/-- Concrete file system used by witnesses: two readable paths with identical
byte content `"hi"`. -/
def fsW : FS := ⟨fun p => if p = "a.txt" ∨ p = "b.txt" then some [104, 105] else none⟩

/-! ## Binary64 model for the Version Counter
(src/gitnot.py, read_version/write_version/bump_version lines 110–133)

`read_version` parses `version.txt` with Python `float()`, `bump_version`
computes `read_version() + 0.1`, and the zero-change rollback writes
`version - 0.1`; `write_version` formats with `f"{version:.1f}"`.  Python
floats are IEEE binary64, embedded here as exact rationals rounded to 53
significant bits with round-to-nearest, ties-to-even (`roundF`).  The values
the tool manipulates are far inside the normal range, where this model is
exact. -/

/-- Structural `⌊log₂⌋` with fuel (`lg2` supplies `n` itself, which bounds
the halving depth). -/
def lg2F : ℕ → ℕ → ℕ
  | 0, _ => 0
  | fuel + 1, n => if n < 2 then 0 else lg2F fuel (n / 2) + 1

/-- `⌊log₂ n⌋` for `n ≥ 1`. -/
def lg2 (n : ℕ) : ℕ := lg2F n n

/-- `⌊log₂ x⌋` for a positive rational. -/
def qlog2 (x : ℚ) : ℤ :=
  if 1 ≤ x then (lg2 ⌊x⌋.toNat : ℤ)
  else -((lg2 (⌈x⁻¹⌉.toNat - 1) + 1 : ℕ) : ℤ)

/-- Round to the nearest integer, ties to even. -/
def rhe (y : ℚ) : ℤ :=
  if y - ⌊y⌋ < 1/2 then ⌊y⌋
  else if 1/2 < y - ⌊y⌋ then ⌊y⌋ + 1
  else if ⌊y⌋ % 2 = 0 then ⌊y⌋ else ⌊y⌋ + 1

/-- Binary64 rounding of a positive rational: scale into `[2^52, 2^53)`,
round the integer significand to nearest (ties to even), scale back. -/
def roundPos (x : ℚ) : ℚ :=
  ((rhe (x * 2 ^ (52 - qlog2 x)) : ℚ)) * 2 ^ (qlog2 x - 52)

/-- Binary64 rounding of a rational (normal range; no overflow or subnormal
handling, which the version counter never reaches). -/
def roundF (x : ℚ) : ℚ :=
  if x = 0 then 0
  else if 0 < x then roundPos x
  else -roundPos (-x)

/-- The Python float literal `0.1`: the binary64 value nearest `1/10`. -/
def pyPointOne : ℚ := roundF (1/10)

/-- Binary64 addition: round the exact sum. -/
def fladd (a b : ℚ) : ℚ := roundF (a + b)

/-- Binary64 subtraction: round the exact difference. -/
def flsub (a b : ℚ) : ℚ := roundF (a - b)

/-- Exact value parser for the decimal-literal shapes `d*` / `d*.d*` that
`float()` receives from `version.txt` (sign handled by `parseDec`; exponent
and underscore forms of the full Python float grammar never occur in a file
the tool writes). -/
def parseDecCore (cs : List Char) : Option ℚ :=
  let ip := cs.takeWhile isDig
  match cs.dropWhile isDig with
  | [] =>
    if ip.isEmpty then none
    else some ((ip.foldl (fun a c => a * 10 + digVal c) 0 : ℕ) : ℚ)
  | '.' :: fp =>
    if fp.all isDig && !(ip.isEmpty && fp.isEmpty) then
      some ((ip.foldl (fun a c => a * 10 + digVal c) 0 : ℕ) +
            ((fp.foldl (fun a c => a * 10 + digVal c) 0 : ℕ) : ℚ) / 10 ^ fp.length)
    else none
  | _ => none

/-- Python `float(s)` for such literals: optional sign, then the digits; the
result is the exact rational value (rounding to binary64 happens at
`read_version`). -/
def parseDec (s : String) : Option ℚ :=
  match (pyStrip s).toList with
  | [] => none
  | c :: t =>
    if c = '-' then (parseDecCore t).map (fun q => -q)
    else if c = '+' then parseDecCore t
    else parseDecCore (c :: t)

/-- `read_version()`: `float(content.strip())`, or `0.0` on `ValueError`
(the binary64 value of the parsed decimal). -/
def read_version (content : String) : ℚ :=
  match parseDec content with
  | some q => roundF q
  | none => 0

/-- The canonical one-decimal rendering of `k/10`. -/
def decStr (k : ℕ) : String := natStr (k / 10) ++ "." ++ natStr (k % 10)

/-- Python `f"{v:.1f}"`: round to one decimal (correctly rounded, ties to
even) and print with one fractional digit. -/
def pyFormat1f (v : ℚ) : String :=
  if v < 0 then "-" ++ decStr (rhe (10 * (-v))).toNat
  else decStr (rhe (10 * v)).toNat

/-! ## Ignore rules (src/gitnot.py, should_ignore_file lines 44–62)

A candidate path is a `pathlib.Path`; the function consumes its `parts`
(components, none containing `/`), its `name` (last component), and
`Path.match`.  We embed paths as their component lists (`List (List Char)`)
and patterns as character lists.  `fnmatch`-style matching of one component
implements `*`, `?` and `[...]` classes (with `!` negation and `a-z` ranges;
an unterminated `[` is a literal, as in `fnmatch.translate`; a reversed range
matches nothing).  `Path.match` with a relative pattern matches the pattern's
components against the trailing components of the path. -/

/-- `'*' in pattern or '?' in pattern` (line 55). -/
def hasWild (pat : List Char) : Bool := pat.any (fun c => c = '*' || c = '?')

/-- `pattern.endswith('/*')` (line 50). -/
def endsSlashStar (pat : List Char) : Bool :=
  match pat.reverse with
  | a :: b :: _ => a = '*' && b = '/'
  | _ => false

/-- `pattern[:-2]` (line 51). -/
def dropLast2 (pat : List Char) : List Char := pat.dropLast.dropLast

/-- Scan for the closing `]` of a character class: characters before it and
the rest of the pattern after it. -/
def scanClose : List Char → Option (List Char × List Char)
  | [] => none
  | ']' :: rest => some ([], rest)
  | c :: rest =>
    match scanClose rest with
    | some (stuff, after) => some (c :: stuff, after)
    | none => none

/-- Parse the body of a `[...]` class (the pattern after `[`): negation flag,
class content, and the remaining pattern; `none` when the class is
unterminated (then `[` is a literal, as in `fnmatch.translate`). -/
def splitClass (ps : List Char) : Option (Bool × List Char × List Char) :=
  let negps : Bool × List Char :=
    match ps with
    | '!' :: t => (true, t)
    | _ => (false, ps)
  match negps.2 with
  | ']' :: t =>
    match scanClose t with
    | some (stuff, rest) => some (negps.1, ']' :: stuff, rest)
    | none => none
  | other =>
    match scanClose other with
    | some (stuff, rest) => some (negps.1, stuff, rest)
    | none => none

/-- Items of a class body: ranges `a-b`, otherwise single characters
(`-` at the edges is a literal). -/
def classItems : List Char → List (Char × Char)
  | [] => []
  | a :: '-' :: b :: rest => (a, b) :: classItems rest
  | a :: rest => (a, a) :: classItems rest

/-- Membership of a character in a class body. -/
def inClass (c : Char) (stuff : List Char) : Bool :=
  (classItems stuff).any (fun ab => decide (ab.1 ≤ c) && decide (c ≤ ab.2))

/-- Glob matching of one pattern against one string (fuel-structured; every
call decreases the fuel and `fnmatchComp` supplies more fuel than the
recursion depth `|pattern| + |string|`). -/
def globM : ℕ → List Char → List Char → Bool
  | 0, _, _ => false
  | _ + 1, [], s => s.isEmpty
  | fuel + 1, '*' :: ps, s =>
    globM fuel ps s ||
      (match s with
       | [] => false
       | _ :: t => globM fuel ('*' :: ps) t)
  | fuel + 1, '?' :: ps, s =>
    (match s with
     | _ :: t => globM fuel ps t
     | [] => false)
  | fuel + 1, '[' :: ps, s =>
    (match splitClass ps with
     | some (neg, stuff, rest) =>
       match s with
       | d :: t => (inClass d stuff != neg) && globM fuel rest t
       | [] => false
     | none =>
       match s with
       | d :: t => (d = '[') && globM fuel ps t
       | [] => false)
  | fuel + 1, c :: ps, s =>
    (match s with
     | d :: t => (c = d) && globM fuel ps t
     | [] => false)

/-- `fnmatch.fnmatchcase(name, pat)` on one path component. -/
def fnmatchComp (name pat : List Char) : Bool :=
  globM (pat.length + name.length + 1) pat name

/-- Split on `/`, dropping empty components (as `PurePath` normalisation
collapses duplicate and trailing slashes). -/
def slashAux : List Char → List Char → List (List Char)
  | [], acc => if acc.isEmpty then [] else [acc.reverse]
  | c :: t, acc =>
    if c = '/' then
      if acc.isEmpty then slashAux t [] else acc.reverse :: slashAux t []
    else slashAux t (c :: acc)

/-- Components of a relative pattern. -/
def splitSlash (s : List Char) : List (List Char) := slashAux s []

/-- Componentwise glob match of equally long component lists. -/
def compsMatch : List (List Char) → List (List Char) → Bool
  | [], [] => true
  | c :: cs, p :: ps => fnmatchComp c p && compsMatch cs ps
  | _, _ => false

/-- `PurePath.match` with a relative pattern: the pattern's components match
the trailing components of the path (an empty pattern never matches — CPython
raises there). -/
def pathMatch (parts : List (List Char)) (pat : List Char) : Bool :=
  let pp := splitSlash pat
  !pp.isEmpty && decide (pp.length ≤ parts.length) &&
    compsMatch (parts.drop (parts.length - pp.length)) pp

/-- `Path.name`: the last component. -/
def lastComp (parts : List (List Char)) : List Char := parts.getLastD []

/-- One ignore pattern against one path: the three branches of
`should_ignore_file` in configured order — directory pattern `dir/*`
(a path part equals the directory name), wildcard pattern (`Path.match`),
exact filename. -/
def matchesPat (parts : List (List Char)) (pat : List Char) : Bool :=
  if endsSlashStar pat then parts.any (fun seg => seg == dropLast2 pat)
  else if hasWild pat then pathMatch parts pat
  else lastComp parts == pat

/-- `should_ignore_file(file_path, ignore_patterns)`: first matching rule
excludes the file. -/
def should_ignore_file (parts : List (List Char)) (pats : List (List Char)) : Bool :=
  pats.any (matchesPat parts)

/-! ## The update operation (src/gitnot.py, update_gitnot lines 232–356)

`update_gitnot` is embedded as a pure transition on the persisted state.  The
file system outside the tool's own storage enters through parameters: the
current candidate files with their contents (`curFiles`), their digests
(`hashOf`, i.e. `hash_file`), the `difflib.unified_diff` output per modified
path (`diffOf`), and an oracle for per-file open/decode errors (`ioFail`).
`fail` says which step of the snapshot materialization/swap raises an
`OSError`, if any. -/

/-- The persisted state of the tool: `version.txt` content, parsed
`hashes.json`, the snapshot tree, the deleted-files archive, and the
changelog files (path ↦ file content). -/
structure UpdState where
  initialized : Bool
  version : String
  hashes : List (String × String)
  snapshotExists : Bool
  snapshot : List (String × String)
  deletedArc : List (String × String)
  changelogs : List (String × String)
deriving DecidableEq

/-- Which step of the snapshot replacement raises an I/O error: copying the
`n`-th current file into the temp directory, `shutil.rmtree` of the old
snapshot, `shutil.move` of the temp directory, or none. -/
inductive FailPoint where
  | copyAt : ℕ → FailPoint
  | rmtreeOld : FailPoint
  | moveTemp : FailPoint
  | noFail : FailPoint
deriving DecidableEq

/-- Changelog content of a path (empty when the file does not exist yet). -/
def getLog (logs : List (String × String)) (p : String) : String :=
  (lk p logs).getD ""

/-- `open(changelog_path, 'a')` followed by writes: append to the file's
content, creating it if missing. -/
def appendLog (logs : List (String × String)) (p e : String) : List (String × String) :=
  setA p (getLog logs p ++ e) logs

/-- `"\n## v{version:.1f} – {timestamp}\n"`. -/
def entryHeader (ver ts : String) : String := "\n## v" ++ ver ++ " – " ++ ts ++ "\n"

/-- New-file changelog entry (lines 256–257). -/
def entryNew (ver ts : String) : String := entryHeader ver ts ++ "📄 New file added.\n"

/-- Modified-file changelog entry (lines 278–282): the rendered diff, or the
generic marker when `difflib` produced no lines. -/
def entryModDiff (ver ts : String) (diff : List String) : String :=
  entryHeader ver ts ++
    (if diff.isEmpty then "📄 File changed (no readable diff)\n"
     else format_diff_as_markdown diff ++ "\n")

/-- Encoding-failure changelog entry (lines 290–291). -/
def entryEnc (ver ts : String) : String :=
  entryHeader ver ts ++ "📄 File changed (encoding issues, diff skipped)\n"

/-- Deleted-file changelog entry (lines 312–313). -/
def entryDel (ver ts : String) : String := entryHeader ver ts ++ "🔻 File was deleted.\n"

/-- First loop of `update_gitnot` (lines 248–293): over
`current_hashes.items()`, append a new-file entry for unknown paths; for
changed digests, if the snapshot copy exists, append the diff entry (or the
encoding-failure entry when reading raises). -/
def pass1 (old snap : List (String × String)) (diffOf : String → List String)
    (ioFail : String → Bool) (ver ts : String) :
    List (String × String) → List (String × String) → List (String × String)
  | logs, [] => logs
  | logs, (p, h) :: rest =>
    let logs2 :=
      match lk p old with
      | none => appendLog logs p (entryNew ver ts)
      | some g =>
        if g != h then
          if (lk p snap).isSome then
            if ioFail p then appendLog logs p (entryEnc ver ts)
            else appendLog logs p (entryModDiff ver ts (diffOf p))
          else logs
        else logs
    pass1 old snap diffOf ioFail ver ts logs2 rest

/-- Second loop of `update_gitnot` (lines 296–315): over `old_hashes`, for
paths no longer current, move the snapshot copy into the deleted archive and
append a deletion entry. -/
def passDel (cur : List (String × String)) (ver ts : String) :
    List (String × String) → List (String × String) → List (String × String) →
    List (String × String) →
    List (String × String) × List (String × String) × List (String × String)
  | [], logs, snap, arc => (logs, snap, arc)
  | (p, _) :: rest, logs, snap, arc =>
    if (lk p cur).isNone then
      match lk p snap with
      | some c =>
        passDel cur ver ts rest (appendLog logs p (entryDel ver ts)) (eraseA p snap)
          (setA p c arc)
      | none => passDel cur ver ts rest (appendLog logs p (entryDel ver ts)) snap arc
    else passDel cur ver ts rest logs snap arc

/-- The whole `update_gitnot` transition.  Notable code facts it preserves:
the version is tentatively bumped before delta detection and rolled back on
zero changes; in the snapshot-replacement `try/except` the `except` prints a
warning and cleans the temp directory but execution falls through to
`save_json(HASHES_FILE, current_hashes)`, so the new hash index is persisted
even when the copy or swap failed; when the swap's `shutil.move` fails after
`shutil.rmtree(SNAPSHOT_DIR)` succeeded, no snapshot tree remains at all;
when the snapshot directory was already missing, the function returns early
and the hash index is not saved. -/
def update_gitnot (st : UpdState) (curFiles : List (String × String))
    (hashOf : String → String) (diffOf : String → List String)
    (ioFail : String → Bool) (ts : String) (fail : FailPoint) : UpdState :=
  if st.initialized = false then st
  else
    let old := st.hashes
    let curHashes := curFiles.map (fun pc => (pc.1, hashOf pc.1))
    let v1 := fladd (read_version st.version) pyPointOne
    let ver := pyFormat1f v1
    let logs1 := pass1 old st.snapshot diffOf ioFail ver ts st.changelogs curHashes
    let del := passDel curHashes ver ts old logs1 st.snapshot st.deletedArc
    if addedOf old curHashes = [] ∧ modifiedOf old curHashes = [] ∧
       deletedOf old curHashes = [] then
      { st with version := pyFormat1f (flsub v1 pyPointOne),
                changelogs := del.1, snapshot := del.2.1, deletedArc := del.2.2 }
    else if st.snapshotExists then
      match fail with
      | .copyAt n =>
        if n < curFiles.length then
          { st with version := ver, changelogs := del.1, snapshot := del.2.1,
                    deletedArc := del.2.2, hashes := curHashes }
        else
          { st with version := ver, changelogs := del.1, snapshot := curFiles,
                    deletedArc := del.2.2, hashes := curHashes }
      | .rmtreeOld =>
        { st with version := ver, changelogs := del.1, snapshot := del.2.1,
                  deletedArc := del.2.2, hashes := curHashes }
      | .moveTemp =>
        { st with version := ver, changelogs := del.1, snapshotExists := false,
                  snapshot := [], deletedArc := del.2.2, hashes := curHashes }
      | .noFail =>
        { st with version := ver, changelogs := del.1, snapshot := curFiles,
                  deletedArc := del.2.2, hashes := curHashes }
    else
      { st with version := ver, changelogs := del.1, snapshot := del.2.1,
                deletedArc := del.2.2 }

/-- The changelog effect of `init_gitnot` (lines 216–219): each tracked
file's changelog is opened with mode `'w'` and seeded with the original
marker — overwriting whatever was there. -/
def init_changelogs : List String → List (String × String) → List (String × String)
  | [], logs => logs
  | p :: rest, logs =>
    init_changelogs rest (setA p ("# " ++ p ++ " — original v0.1\n") logs)

/-- Concrete pre-state for exercising the commit-failure path. -/
def stC1 : UpdState :=
  { initialized := true, version := "0.1", hashes := [("a.txt", "h1")],
    snapshotExists := true, snapshot := [("a.txt", "old content")],
    deletedArc := [], changelogs := [("a.txt", "LOG")] }

/-- Changelog store `l2` extends `l1`: every path's content in `l2` is the
content in `l1` followed by some (possibly empty) appended suffix. -/
def LogExt (l1 l2 : List (String × String)) : Prop :=
  ∀ p, ∃ s, getLog l2 p = getLog l1 p ++ s

/-- Concrete pre-state for the zero-change rollback witness. -/
def stW5 : UpdState :=
  { initialized := true, version := "0.3", hashes := [("a.txt", "h")],
    snapshotExists := true, snapshot := [("a.txt", "c")],
    deletedArc := [], changelogs := [("a.txt", "L")] }

/-- Pre-state whose stored one-decimal version `9007199254740992.5` sits past
the binary64 integer-precision limit. -/
def stBig : UpdState :=
  { initialized := true, version := decStr 90071992547409925, hashes := [],
    snapshotExists := true, snapshot := [], deletedArc := [], changelogs := [] }

/-! ## Helper lemmas about dict lookup and the classification -/

theorem lk_eq_none_iff {p : String} {l : List (String × String)} :
    lk p l = none ↔ p ∉ l.map Prod.fst := by
  induction l with
  | nil => simp [lk]
  | cons x t ih =>
    obtain ⟨q, v⟩ := x
    by_cases h : q = p
    · subst h
      simp [lk]
    · simp [lk, h, ih, Ne.symm h]

theorem lk_mem {p v : String} {l : List (String × String)} (h : lk p l = some v) :
    (p, v) ∈ l := by
  induction l with
  | nil => simp [lk] at h
  | cons x t ih =>
    obtain ⟨q, w⟩ := x
    by_cases hq : q = p
    · subst hq
      simp [lk] at h
      subst h
      exact List.mem_cons_self _ _
    · simp [lk, hq] at h
      exact List.mem_cons_of_mem _ (ih h)

theorem lk_isSome_of_mem {p v : String} {l : List (String × String)}
    (h : (p, v) ∈ l) : (lk p l).isSome := by
  induction l with
  | nil => simp at h
  | cons x t ih =>
    obtain ⟨q, w⟩ := x
    rcases List.mem_cons.mp h with h1 | h2
    · cases h1
      simp [lk]
    · by_cases hq : q = p <;> simp [lk, hq, ih h2]

theorem lk_of_mem_nodup {p v : String} {l : List (String × String)}
    (hnd : (l.map Prod.fst).Nodup) (h : (p, v) ∈ l) : lk p l = some v := by
  induction l with
  | nil => simp at h
  | cons x t ih =>
    obtain ⟨q, w⟩ := x
    simp only [List.map_cons, List.nodup_cons] at hnd
    rcases List.mem_cons.mp h with h1 | h2
    · cases h1
      simp [lk]
    · have hq : q ≠ p := by
        intro hqp
        subst hqp
        exact hnd.1 (List.mem_map.mpr ⟨(q, v), h2, rfl⟩)
      simp [lk, hq, ih hnd.2 h2]

theorem mem_addedOf {old cur : List (String × String)} {p : String} :
    p ∈ addedOf old cur ↔ ∃ c, (p, c) ∈ cur ∧ lk p old = none := by
  simp only [addedOf, List.mem_map, List.mem_filter]
  constructor
  · rintro ⟨⟨q, c⟩, ⟨hm, hb⟩, rfl⟩
    exact ⟨c, hm, Option.isNone_iff_eq_none.mp hb⟩
  · rintro ⟨c, hm, hn⟩
    exact ⟨(p, c), ⟨hm, by simp [hn]⟩, rfl⟩

theorem mem_modifiedOf {old cur : List (String × String)} {p : String} :
    p ∈ modifiedOf old cur ↔ ∃ c g, (p, c) ∈ cur ∧ lk p old = some g ∧ g ≠ c := by
  simp only [modifiedOf, List.mem_map, List.mem_filter]
  constructor
  · rintro ⟨⟨q, c⟩, ⟨hm, hb⟩, rfl⟩
    cases hlk : lk q old with
    | none => rw [hlk] at hb; simp at hb
    | some g =>
      rw [hlk] at hb
      exact ⟨c, g, hm, rfl, by simpa using hb⟩
  · rintro ⟨c, g, hm, hlk, hne⟩
    exact ⟨(p, c), ⟨hm, by simp [hlk, hne]⟩, rfl⟩

theorem mem_deletedOf {old cur : List (String × String)} {p : String} :
    p ∈ deletedOf old cur ↔ ∃ g, (p, g) ∈ old ∧ lk p cur = none := by
  simp only [deletedOf, List.mem_map, List.mem_filter]
  constructor
  · rintro ⟨⟨q, g⟩, ⟨hm, hb⟩, rfl⟩
    exact ⟨g, hm, Option.isNone_iff_eq_none.mp hb⟩
  · rintro ⟨g, hm, hn⟩
    exact ⟨(p, g), ⟨hm, by simp [hn]⟩, rfl⟩

theorem mem_unchangedOf {old cur : List (String × String)} {p : String} :
    p ∈ unchangedOf old cur ↔ ∃ c, (p, c) ∈ cur ∧ lk p old = some c := by
  simp only [unchangedOf, List.mem_map, List.mem_filter]
  constructor
  · rintro ⟨⟨q, c⟩, ⟨hm, hb⟩, rfl⟩
    exact ⟨c, hm, by simpa using hb⟩
  · rintro ⟨c, hm, hlk⟩
    exact ⟨(p, c), ⟨hm, by simp [hlk]⟩, rfl⟩

/-- Filter-then-project commutes with project-then-filter when the predicates
agree on the list's elements. -/
theorem filter_map_fst_comm (l : List (String × String))
    (f : String × String → Bool) (g : String → Bool)
    (h : ∀ pc ∈ l, f pc = g pc.1) :
    (l.filter f).map Prod.fst = (l.map Prod.fst).filter g := by
  induction l with
  | nil => rfl
  | cons x t ih =>
    have hx := h x (List.mem_cons_self _ _)
    have ht : ∀ pc ∈ t, f pc = g pc.1 := fun pc hpc => h pc (List.mem_cons_of_mem _ hpc)
    simp only [List.filter_cons, List.map_cons, ← hx]
    by_cases hfx : f x = true
    · simp [hfx, ih ht]
    · simp [hfx, ih ht]

/-- C2: for every old HashIndex and freshly computed current hash map, the
Delta Detector's four categories (Added, Modified, Deleted, Unchanged) are
pairwise disjoint and their union is exactly the set of paths appearing in
either map.  (The classification is a pure function of the two maps by
construction: `addedOf`/`modifiedOf`/`deletedOf`/`unchangedOf` are functions
of `old` and `cur` alone.)  The `Nodup` hypothesis states that the current
hash map is a Python dict (unique keys). -/
theorem delta_detector_partition (old cur : List (String × String))
    (hc : (cur.map Prod.fst).Nodup) :
    (∀ p, p ∈ addedOf old cur → p ∉ modifiedOf old cur) ∧
    (∀ p, p ∈ addedOf old cur → p ∉ deletedOf old cur) ∧
    (∀ p, p ∈ addedOf old cur → p ∉ unchangedOf old cur) ∧
    (∀ p, p ∈ modifiedOf old cur → p ∉ deletedOf old cur) ∧
    (∀ p, p ∈ modifiedOf old cur → p ∉ unchangedOf old cur) ∧
    (∀ p, p ∈ deletedOf old cur → p ∉ unchangedOf old cur) ∧
    (∀ p, (p ∈ addedOf old cur ∨ p ∈ modifiedOf old cur ∨ p ∈ deletedOf old cur ∨
           p ∈ unchangedOf old cur) ↔ (p ∈ cur.map Prod.fst ∨ p ∈ old.map Prod.fst)) := by
  refine ⟨?_, ?_, ?_, ?_, ?_, ?_, ?_⟩
  · intro p hA hM
    obtain ⟨c, _, hnone⟩ := mem_addedOf.mp hA
    obtain ⟨c', g, _, hsome, _⟩ := mem_modifiedOf.mp hM
    rw [hnone] at hsome
    exact Option.noConfusion hsome
  · intro p hA hD
    obtain ⟨c, hmc, _⟩ := mem_addedOf.mp hA
    obtain ⟨g, _, hnone⟩ := mem_deletedOf.mp hD
    have hs := lk_isSome_of_mem hmc
    rw [hnone] at hs
    simp at hs
  · intro p hA hU
    obtain ⟨c, _, hnone⟩ := mem_addedOf.mp hA
    obtain ⟨c', _, hsome⟩ := mem_unchangedOf.mp hU
    rw [hnone] at hsome
    exact Option.noConfusion hsome
  · intro p hM hD
    obtain ⟨c, g, hmc, _, _⟩ := mem_modifiedOf.mp hM
    obtain ⟨g', _, hnone⟩ := mem_deletedOf.mp hD
    have hs := lk_isSome_of_mem hmc
    rw [hnone] at hs
    simp at hs
  · intro p hM hU
    obtain ⟨c, g, hmc, hsome, hne⟩ := mem_modifiedOf.mp hM
    obtain ⟨c', hmc', hsome'⟩ := mem_unchangedOf.mp hU
    have h1 := lk_of_mem_nodup hc hmc
    have h2 := lk_of_mem_nodup hc hmc'
    rw [h1] at h2
    obtain rfl : c = c' := by injection h2
    rw [hsome] at hsome'
    exact hne (by injection hsome')
  · intro p hD hU
    obtain ⟨g, _, hnone⟩ := mem_deletedOf.mp hD
    obtain ⟨c, hmc, _⟩ := mem_unchangedOf.mp hU
    have hs := lk_isSome_of_mem hmc
    rw [hnone] at hs
    simp at hs
  · intro p
    have hcur : ∀ c, (p, c) ∈ cur →
        (p ∈ addedOf old cur ∨ p ∈ modifiedOf old cur ∨ p ∈ deletedOf old cur ∨
         p ∈ unchangedOf old cur) := by
      intro c hm
      cases hlk : lk p old with
      | none => exact Or.inl (mem_addedOf.mpr ⟨c, hm, hlk⟩)
      | some g =>
        by_cases hg : g = c
        · exact Or.inr (Or.inr (Or.inr (mem_unchangedOf.mpr ⟨c, hm, hg ▸ hlk⟩)))
        · exact Or.inr (Or.inl (mem_modifiedOf.mpr ⟨c, g, hm, hlk, hg⟩))
    constructor
    · rintro (hA | hM | hD | hU)
      · obtain ⟨c, hm, _⟩ := mem_addedOf.mp hA
        exact Or.inl (List.mem_map.mpr ⟨(p, c), hm, rfl⟩)
      · obtain ⟨c, g, hm, _, _⟩ := mem_modifiedOf.mp hM
        exact Or.inl (List.mem_map.mpr ⟨(p, c), hm, rfl⟩)
      · obtain ⟨g, hm, _⟩ := mem_deletedOf.mp hD
        exact Or.inr (List.mem_map.mpr ⟨(p, g), hm, rfl⟩)
      · obtain ⟨c, hm, _⟩ := mem_unchangedOf.mp hU
        exact Or.inl (List.mem_map.mpr ⟨(p, c), hm, rfl⟩)
    · rintro (hkc | hko)
      · obtain ⟨⟨q, c⟩, hm, rfl⟩ := List.mem_map.mp hkc
        exact hcur c hm
      · obtain ⟨⟨q, g⟩, hm, rfl⟩ := List.mem_map.mp hko
        cases hlk : lk q cur with
        | none => exact Or.inr (Or.inr (Or.inl (mem_deletedOf.mpr ⟨g, hm, hlk⟩)))
        | some c => exact hcur c (lk_mem hlk)

/-- Witness for C2: the partition property evaluated at a concrete pair of
hash maps. -/
theorem delta_detector_partition_witness :
    (curW.map Prod.fst).Nodup ∧
    ((∀ p, p ∈ addedOf oldW curW → p ∉ modifiedOf oldW curW) ∧
     (∀ p, p ∈ addedOf oldW curW → p ∉ deletedOf oldW curW) ∧
     (∀ p, p ∈ addedOf oldW curW → p ∉ unchangedOf oldW curW) ∧
     (∀ p, p ∈ modifiedOf oldW curW → p ∉ deletedOf oldW curW) ∧
     (∀ p, p ∈ modifiedOf oldW curW → p ∉ unchangedOf oldW curW) ∧
     (∀ p, p ∈ deletedOf oldW curW → p ∉ unchangedOf oldW curW) ∧
     (∀ p, (p ∈ addedOf oldW curW ∨ p ∈ modifiedOf oldW curW ∨
            p ∈ deletedOf oldW curW ∨ p ∈ unchangedOf oldW curW) ↔
           (p ∈ curW.map Prod.fst ∨ p ∈ oldW.map Prod.fst))) :=
  ⟨by decide, delta_detector_partition oldW curW (by decide)⟩

/-- C3: the read-only status query (`show_status`) and the committing update
(`update_gitnot`) compute identical added/modified/deleted classifications
from the same pair of hash maps.  The `Nodup` hypothesis states that the
current hash map is a Python dict (unique keys). -/
theorem status_matches_update (old cur : List (String × String))
    (hc : (cur.map Prod.fst).Nodup) :
    new_files old cur = addedOf old cur ∧
    changed_files old cur = modifiedOf old cur ∧
    deleted_files old cur = deletedOf old cur := by
  refine ⟨?_, ?_, ?_⟩
  · exact (filter_map_fst_comm cur _ _ (fun pc _ => rfl)).symm
  · refine (filter_map_fst_comm cur _ _ ?_).symm
    intro pc hpc
    have hcc : lk pc.1 cur = some pc.2 := lk_of_mem_nodup hc hpc
    cases hlk : lk pc.1 old <;> simp [hlk, hcc]
  · exact (filter_map_fst_comm old _ _ (fun pg _ => rfl)).symm

/-- Witness for C3: the status/update agreement evaluated at a concrete pair
of hash maps. -/
theorem status_matches_update_witness :
    (curW.map Prod.fst).Nodup ∧
    (new_files oldW curW = addedOf oldW curW ∧
     changed_files oldW curW = modifiedOf oldW curW ∧
     deleted_files oldW curW = deletedOf oldW curW) :=
  ⟨by decide, status_matches_update oldW curW (by decide)⟩

/-- C10: a missing or unparsable `hashes.json` loads as the empty map without
an error, so the subsequent classification marks every current file as Added
and produces no Modified or Deleted entries — both in the committing update
and in the status query. -/
theorem load_json_fallback_rebaseline :
    load_json JsonFile.absent = [] ∧ load_json JsonFile.unparsable = [] ∧
    ∀ cur : List (String × String),
      addedOf (load_json JsonFile.absent) cur = cur.map Prod.fst ∧
      modifiedOf (load_json JsonFile.absent) cur = [] ∧
      deletedOf (load_json JsonFile.absent) cur = [] ∧
      new_files (load_json JsonFile.unparsable) cur = cur.map Prod.fst ∧
      changed_files (load_json JsonFile.unparsable) cur = [] ∧
      deleted_files (load_json JsonFile.unparsable) cur = [] := by
  refine ⟨rfl, rfl, ?_⟩
  intro cur
  refine ⟨?_, ?_, rfl, ?_, ?_, rfl⟩
  · have h : cur.filter (fun pc => (lk pc.1 (load_json JsonFile.absent)).isNone) = cur :=
      List.filter_eq_self.mpr (fun a _ => by simp [lk, load_json])
    simp [addedOf, h]
  · induction cur with
    | nil => rfl
    | cons x t ih =>
      simp only [modifiedOf, List.filter_cons] at ih ⊢
      simp [lk, load_json, ih]
  · exact List.filter_eq_self.mpr (fun a _ => by simp [lk, load_json])
  · induction cur with
    | nil => rfl
    | cons x t ih =>
      simp only [changed_files, List.map_cons, List.filter_cons] at ih ⊢
      simp [lk, load_json, ih]

/-- A line that starts with `-` cannot start with `@@`. -/
theorem startsWith_dash_not_hunk {l : String} (h : pyStartsWith l "-" = true) :
    pyStartsWith l "@@" = false := by
  unfold pyStartsWith at h ⊢
  cases hl : l.toList with
  | nil => rw [hl] at h; simp [List.isPrefixOf] at h
  | cons c t =>
    rw [hl] at h
    have hc : c = '-' := by
      have : ('-' == c) = true := by
        simpa [List.isPrefixOf] using h
      exact (beq_iff_eq.mp this).symm
    subst hc
    simp [List.isPrefixOf]

/-- C4: in the Diff Renderer, a removed line immediately followed by an added
line that is equal after trailing-whitespace normalisation produces no Added
and no Removed entry while both line counters advance by one; and on the
spec's concrete example (`difflib` output for old `["a\n","b\n"]` versus new
`["a\n","b\r\n"]`) the rendered report has empty Added and Removed lists. -/
theorem diff_pair_suppression (st : DiffSt) (l r : String) (rest : List String)
    (h1 : pyStartsWith l "-" = true) (h2 : pyStartsWith r "+" = true)
    (h3 : pyRstrip (drop1 l) = pyRstrip (drop1 r)) :
    fmtLoop (l :: r :: rest) st =
      fmtLoop rest { st with old_ln := st.old_ln + 1, new_ln := st.new_ln + 1 } ∧
    diffLists diffABCRLF = ([], []) := by
  constructor
  · have hq := startsWith_dash_not_hunk h1
    have hpair : pairCond l r = true := by simp [pairCond, h1, h2, h3]
    simp [fmtLoop, hq, hpair]
  · rfl

/-- Witness for C4: the pair-suppression step evaluated on a concrete removed
line and added line differing only in trailing whitespace. -/
theorem diff_pair_suppression_witness :
    (pyStartsWith "-x" "-" = true ∧ pyStartsWith "+x \t" "+" = true ∧
     pyRstrip (drop1 "-x") = pyRstrip (drop1 "+x \t")) ∧
    (fmtLoop ["-x", "+x \t"] initDiffSt =
       fmtLoop [] { initDiffSt with old_ln := initDiffSt.old_ln + 1,
                                    new_ln := initDiffSt.new_ln + 1 } ∧
     diffLists diffABCRLF = ([], [])) :=
  ⟨⟨by decide, by decide, by decide⟩,
   diff_pair_suppression initDiffSt "-x" "+x \t" [] (by decide) (by decide) (by decide)⟩

/-- C8 (amended): the diff formatter is a total function on every list of
diff lines (it is defined by terminating recursion, so it never raises); a
hunk header that splits into at least three fields with parsable start
numbers `-a,b` and `+c,d` resets the counters to `a` and `c`; one with at
least three fields whose numbers fail to parse resets both counters to zero;
and one with fewer than three fields leaves both counters unchanged (the
claim's "resets to zero" is wrong for this last case). -/
theorem hunk_header_reset :
    (∀ line st p0 p1 p2 ps (a c : Int), pySplitWs line = p0 :: p1 :: p2 :: ps →
       pyInt (drop1 (takeBeforeComma p1)) = some a →
       pyInt (drop1 (takeBeforeComma p2)) = some c →
       hunkApply line st = { st with old_ln := a, new_ln := c }) ∧
    (∀ line st p0 p1 p2 ps, pySplitWs line = p0 :: p1 :: p2 :: ps →
       (pyInt (drop1 (takeBeforeComma p1)) = none ∨
        pyInt (drop1 (takeBeforeComma p2)) = none) →
       hunkApply line st = { st with old_ln := 0, new_ln := 0 }) ∧
    (∀ line st, (pySplitWs line).length < 3 → hunkApply line st = st) ∧
    (∀ line st rest, pyStartsWith line "@@" = true →
       fmtLoop (line :: rest) st = fmtLoop rest (hunkApply line st)) := by
  refine ⟨?_, ?_, ?_, ?_⟩
  · intro line st p0 p1 p2 ps a c hsplit ha hc
    simp [hunkApply, hsplit, ha, hc]
  · intro line st p0 p1 p2 ps hsplit hfail
    rcases hfail with hf | hf
    · simp [hunkApply, hsplit, hf]
    · cases h1 : pyInt (drop1 (takeBeforeComma p1)) <;>
        simp [hunkApply, hsplit, h1, hf]
  · intro line st hlen
    cases h : pySplitWs line with
    | nil => simp [hunkApply, h]
    | cons q t =>
      cases t with
      | nil => simp [hunkApply, h]
      | cons r t2 =>
        cases t2 with
        | nil => simp [hunkApply, h]
        | cons s t3 => rw [h] at hlen; simp at hlen; omega
  · intro line st rest hq
    cases rest with
    | nil => simp [fmtLoop, hq]
    | cons next rest2 => simp [fmtLoop, hq]

/-- Counterexample to C8 as stated: the malformed hunk header `"@@ x"` (two
fields) does not reset the counters to zero — the following added line is
numbered by the previous hunk's counter 7, not 0. -/
theorem hunk_header_malformed_keeps_counters :
    diffLists ["@@ -5,1 +7,1 @@", "@@ x", "+foo"] = (["L7: foo"], []) ∧
    diffLists ["@@ -5,1 +7,1 @@", "@@ x", "+foo"] ≠ (["L0: foo"], []) := by
  constructor
  · rfl
  · decide

/-! ## Lemmas about the binary64 model -/

theorem rhe_abs_le (y : ℚ) : |(rhe y : ℚ) - y| ≤ 1/2 := by
  have hfl : (⌊y⌋ : ℚ) ≤ y := Int.floor_le y
  have hfu : y < ⌊y⌋ + 1 := Int.lt_floor_add_one y
  unfold rhe
  split_ifs with h1 h2 h3 <;> push_cast <;> rw [abs_le] <;> constructor <;> linarith

theorem rhe_eq_of_abs_lt {y : ℚ} {n : ℤ} (h : |y - n| < 1/2) : rhe y = n := by
  rw [abs_lt] at h
  rcases le_or_lt (n : ℚ) y with hy | hy
  · have hfl : ⌊y⌋ = n := by
      rw [Int.floor_eq_iff]
      exact ⟨hy, by linarith [h.2]⟩
    have hc : y - (⌊y⌋ : ℚ) < 1/2 := by rw [hfl]; linarith [h.2]
    unfold rhe
    rw [if_pos hc, hfl]
  · have hfl : ⌊y⌋ = n - 1 := by
      rw [Int.floor_eq_iff]
      constructor
      · push_cast; linarith [h.1]
      · push_cast; linarith [hy]
    have hc2 : 1/2 < y - (⌊y⌋ : ℚ) := by rw [hfl]; push_cast; linarith [h.1]
    unfold rhe
    rw [if_neg (by linarith), if_pos hc2, hfl]
    omega

theorem rhe_intCast (n : ℤ) : rhe ((n : ℚ)) = n := by
  unfold rhe
  rw [Int.floor_intCast]
  simp

theorem lg2F_spec : ∀ fuel n, 1 ≤ n → n ≤ fuel →
    2 ^ lg2F fuel n ≤ n ∧ n < 2 ^ (lg2F fuel n + 1) := by
  intro fuel
  induction fuel with
  | zero => intro n h1 h2; omega
  | succ fuel ih =>
    intro n h1 h2
    by_cases hn : n < 2
    · have hone : n = 1 := by omega
      subst hone
      simp [lg2F]
    · have h1q : 1 ≤ n / 2 := by omega
      have h2q : n / 2 ≤ fuel := by omega
      obtain ⟨ihl, ihr⟩ := ih (n / 2) h1q h2q
      simp only [lg2F, if_neg hn]
      rw [pow_succ, pow_succ]
      constructor
      · omega
      · rw [pow_succ] at ihr
        omega

theorem lg2_spec (n : ℕ) (h : 1 ≤ n) : 2 ^ lg2 n ≤ n ∧ n < 2 ^ (lg2 n + 1) :=
  lg2F_spec n n h le_rfl

theorem lg2_eq_of {n a : ℕ} (h1 : 2 ^ a ≤ n) (h2 : n < 2 ^ (a + 1)) : lg2 n = a := by
  have hn : 1 ≤ n := le_trans (Nat.one_le_two_pow) h1
  obtain ⟨hl, hr⟩ := lg2_spec n hn
  have h3 : lg2 n < a + 1 := by
    by_contra hcon
    push_neg at hcon
    have := Nat.pow_le_pow_right (by norm_num : 1 ≤ 2) hcon
    omega
  have h4 : a < lg2 n + 1 := by
    by_contra hcon
    push_neg at hcon
    have := Nat.pow_le_pow_right (by norm_num : 1 ≤ 2) hcon
    omega
  omega

theorem qlog2_spec (x : ℚ) (hx : 0 < x) :
    (2:ℚ) ^ qlog2 x ≤ x ∧ x < 2 ^ (qlog2 x + 1) := by
  unfold qlog2
  split_ifs with h1
  · have hfl1 : (1 : ℤ) ≤ ⌊x⌋ := by
      rw [Int.le_floor]
      exact_mod_cast h1
    set m := ⌊x⌋.toNat with hm
    have hmz : (m : ℤ) = ⌊x⌋ := Int.toNat_of_nonneg (by omega)
    have hm1 : 1 ≤ m := by omega
    have hmx : (m : ℚ) ≤ x := by
      calc (m : ℚ) = ((m : ℤ) : ℚ) := by push_cast; ring
        _ = (⌊x⌋ : ℚ) := by rw [hmz]
        _ ≤ x := Int.floor_le x
    have hxm : x < (m : ℚ) + 1 := by
      calc x < ⌊x⌋ + 1 := Int.lt_floor_add_one x
        _ = (m : ℚ) + 1 := by rw [← hmz]; push_cast; ring
    obtain ⟨hl, hr⟩ := lg2_spec m hm1
    constructor
    · rw [zpow_natCast]
      calc ((2:ℚ) ^ lg2 m) = ((2 ^ lg2 m : ℕ) : ℚ) := by push_cast; ring
        _ ≤ (m : ℚ) := by exact_mod_cast hl
        _ ≤ x := hmx
    · rw [show ((lg2 m : ℤ) + 1) = ((lg2 m + 1 : ℕ) : ℤ) by push_cast; ring, zpow_natCast]
      calc x < (m : ℚ) + 1 := hxm
        _ ≤ ((2 ^ (lg2 m + 1) : ℕ) : ℚ) := by exact_mod_cast hr
        _ = (2:ℚ) ^ (lg2 m + 1 : ℕ) := by push_cast; ring
  · push_neg at h1
    have ht1 : 1 < x⁻¹ := one_lt_inv_iff₀.mpr ⟨hx, h1⟩
    have htpos : 0 < x⁻¹ := by linarith
    have hc2 : (2 : ℤ) ≤ ⌈x⁻¹⌉ := by
      have : (1 : ℤ) < ⌈x⁻¹⌉ := Int.lt_ceil.mpr (by exact_mod_cast ht1)
      omega
    set m := ⌈x⁻¹⌉.toNat - 1 with hm
    have hmz : (m : ℤ) = ⌈x⁻¹⌉ - 1 := by omega
    have hm1 : 1 ≤ m := by omega
    have hmt : (m : ℚ) < x⁻¹ := by
      have hlt : (⌈x⁻¹⌉ : ℚ) < x⁻¹ + 1 := Int.ceil_lt_add_one x⁻¹
      calc (m : ℚ) = ((m : ℤ) : ℚ) := by push_cast; ring
        _ = (⌈x⁻¹⌉ : ℚ) - 1 := by rw [hmz]; push_cast; ring
        _ < x⁻¹ := by linarith
    have htm : x⁻¹ ≤ (m : ℚ) + 1 := by
      have hle : x⁻¹ ≤ (⌈x⁻¹⌉ : ℚ) := Int.le_ceil x⁻¹
      calc x⁻¹ ≤ (⌈x⁻¹⌉ : ℚ) := hle
        _ = (m : ℚ) + 1 := by rw [show ((⌈x⁻¹⌉ : ℤ) : ℚ) = ((m : ℤ) : ℚ) + 1 by rw [hmz]; push_cast; ring]; push_cast; ring
    obtain ⟨hl, hr⟩ := lg2_spec m hm1
    have hp1 : ((2:ℚ) ^ (lg2 m + 1 : ℕ)) ≠ 0 := by positivity
    constructor
    · rw [show (-((lg2 m + 1 : ℕ) : ℤ)) = -((lg2 m + 1 : ℕ) : ℤ) from rfl, zpow_neg, zpow_natCast]
      have htb : x⁻¹ ≤ (2:ℚ) ^ (lg2 m + 1 : ℕ) := by
        calc x⁻¹ ≤ (m : ℚ) + 1 := htm
          _ ≤ ((2 ^ (lg2 m + 1) : ℕ) : ℚ) := by exact_mod_cast hr
          _ = (2:ℚ) ^ (lg2 m + 1 : ℕ) := by push_cast; ring
      calc ((2:ℚ) ^ (lg2 m + 1 : ℕ))⁻¹ ≤ (x⁻¹)⁻¹ :=
            inv_anti₀ htpos htb
        _ = x := inv_inv x
    · rw [show (-((lg2 m + 1 : ℕ) : ℤ) + 1) = -((lg2 m : ℕ) : ℤ) by push_cast; ring,
          zpow_neg, zpow_natCast]
      have htb : (2:ℚ) ^ (lg2 m : ℕ) < x⁻¹ := by
        calc (2:ℚ) ^ (lg2 m : ℕ) = ((2 ^ lg2 m : ℕ) : ℚ) := by push_cast; ring
          _ ≤ (m : ℚ) := by exact_mod_cast hl
          _ < x⁻¹ := hmt
      calc x = (x⁻¹)⁻¹ := (inv_inv x).symm
        _ < ((2:ℚ) ^ (lg2 m : ℕ))⁻¹ := by
            apply inv_strictAnti₀ (by positivity) htb

theorem qlog2_eq_of {x : ℚ} {e : ℤ} (hx : 0 < x)
    (h1 : (2:ℚ) ^ e ≤ x) (h2 : x < 2 ^ (e + 1)) : qlog2 x = e := by
  obtain ⟨hl, hr⟩ := qlog2_spec x hx
  by_contra hne
  rcases lt_or_gt_of_ne hne with h | h
  · have hmn : qlog2 x + 1 ≤ e := by omega
    have hle : (2:ℚ) ^ (qlog2 x + 1) ≤ 2 ^ e :=
      zpow_le_zpow_right₀ (by norm_num : (1:ℚ) ≤ 2) hmn
    linarith
  · have hmn : e + 1 ≤ qlog2 x := by omega
    have hle : (2:ℚ) ^ (e + 1) ≤ 2 ^ qlog2 x :=
      zpow_le_zpow_right₀ (by norm_num : (1:ℚ) ≤ 2) hmn
    linarith

/-- Binary64 rounding moves a positive value by at most one part in `2^53`
(half an ulp). -/
theorem roundPos_sub_abs_le (x : ℚ) (hx : 0 < x) : |roundPos x - x| ≤ x / 2 ^ 53 := by
  obtain ⟨hl, hr⟩ := qlog2_spec x hx
  set e := qlog2 x with he
  have h2ne : (2:ℚ) ≠ 0 := by norm_num
  have hmul : (2:ℚ) ^ (52 - e) * 2 ^ (e - 52) = 1 := by
    rw [← zpow_add₀ h2ne]
    norm_num
  have key : roundPos x - x =
      ((rhe (x * 2 ^ (52 - e)) : ℚ) - x * 2 ^ (52 - e)) * 2 ^ (e - 52) := by
    unfold roundPos
    rw [← he]
    have : x * (2 ^ (52 - e) * 2 ^ (e - 52)) = x := by rw [hmul]; ring
    calc (rhe (x * 2 ^ (52 - e)) : ℚ) * 2 ^ (e - 52) - x
        = (rhe (x * 2 ^ (52 - e)) : ℚ) * 2 ^ (e - 52) -
            x * (2 ^ (52 - e) * 2 ^ (e - 52)) := by rw [this]
      _ = ((rhe (x * 2 ^ (52 - e)) : ℚ) - x * 2 ^ (52 - e)) * 2 ^ (e - 52) := by ring
  rw [key, abs_mul, abs_of_pos (zpow_pos (by norm_num : (0:ℚ) < 2) _)]
  have h1 := rhe_abs_le (x * 2 ^ (52 - e))
  calc |(rhe (x * 2 ^ (52 - e)) : ℚ) - x * 2 ^ (52 - e)| * 2 ^ (e - 52)
      ≤ (1/2) * 2 ^ (e - 52) := by
        apply mul_le_mul_of_nonneg_right h1 (le_of_lt (zpow_pos (by norm_num) _))
    _ = 2 ^ (e - 53) := by
        rw [show (1:ℚ)/2 = 2 ^ (-1 : ℤ) by norm_num, ← zpow_add₀ h2ne]
        congr 1
        omega
    _ = 2 ^ e * 2 ^ (-53 : ℤ) := by rw [← zpow_add₀ h2ne]; congr 1
    _ ≤ x * 2 ^ (-53 : ℤ) := by
        apply mul_le_mul_of_nonneg_right hl (le_of_lt (zpow_pos (by norm_num) _))
    _ = x / 2 ^ 53 := by
        rw [zpow_neg, div_eq_mul_inv]
        norm_num

/-- Binary64 rounding moves any value by at most one part in `2^53`. -/
theorem roundF_sub_abs_le (x : ℚ) : |roundF x - x| ≤ |x| / 2 ^ 53 := by
  unfold roundF
  split_ifs with h0 hpos
  · simp [h0]
  · rw [abs_of_pos hpos]
    exact roundPos_sub_abs_le x hpos
  · have hneg : 0 < -x := by
      rcases lt_trichotomy x 0 with h | h | h
      · linarith
      · exact absurd h h0
      · exact absurd h hpos
    have hres := roundPos_sub_abs_le (-x) hneg
    rw [abs_of_neg (by linarith : x < 0)]
    have heq : -roundPos (-x) - x = -(roundPos (-x) - -x) := by ring
    rw [heq, abs_neg]
    exact hres

/-- If `x` lies in the binade `[2^e, 2^(e+1))` and its scaled significand is
within `1/2` of the integer `m`, then `x` rounds to `m · 2^(e-52)`. -/
theorem roundF_eq_of_near {x : ℚ} {m e : ℤ}
    (h1 : (2:ℚ) ^ e ≤ x) (h2 : x < 2 ^ (e + 1))
    (hnear : |x * 2 ^ ((52:ℤ) - e) - m| < 1/2) :
    roundF x = (m : ℚ) * 2 ^ (e - 52) := by
  have hxpos : 0 < x := lt_of_lt_of_le (zpow_pos (by norm_num) _) h1
  unfold roundF
  rw [if_neg (ne_of_gt hxpos), if_pos hxpos]
  unfold roundPos
  rw [qlog2_eq_of hxpos h1 h2, rhe_eq_of_abs_lt hnear]

/-- A dyadic value with a 53-bit significand is a fixed point of the
rounding. -/
theorem roundF_dyadic {m e : ℤ} (h0 : (2:ℤ)^52 ≤ m) (h1 : m < 2^53) :
    roundF ((m : ℚ) * 2 ^ (e - 52)) = (m : ℚ) * 2 ^ (e - 52) := by
  have h2ne : (2:ℚ) ≠ 0 := by norm_num
  have hppos : (0:ℚ) < 2 ^ (e - 52) := zpow_pos (by norm_num) _
  have hm0 : ((2:ℚ))^(52:ℤ) ≤ (m:ℚ) := by
    have : (((2:ℤ)^52 : ℤ) : ℚ) ≤ (m:ℚ) := by exact_mod_cast h0
    calc ((2:ℚ))^(52:ℤ) = (((2:ℤ)^52 : ℤ) : ℚ) := by push_cast; norm_num
      _ ≤ (m:ℚ) := this
  have hm1 : (m:ℚ) < ((2:ℚ))^(53:ℤ) := by
    have : (m:ℚ) < (((2:ℤ)^53 : ℤ) : ℚ) := by exact_mod_cast h1
    calc (m:ℚ) < (((2:ℤ)^53 : ℤ) : ℚ) := this
      _ = ((2:ℚ))^(53:ℤ) := by push_cast; norm_num
  apply roundF_eq_of_near
  · calc (2:ℚ) ^ e = 2 ^ (52:ℤ) * 2 ^ (e - 52) := by rw [← zpow_add₀ h2ne]; norm_num
      _ ≤ (m:ℚ) * 2 ^ (e - 52) := by
          apply mul_le_mul_of_nonneg_right hm0 (le_of_lt hppos)
  · calc (m:ℚ) * 2 ^ (e - 52) < 2 ^ (53:ℤ) * 2 ^ (e - 52) := by
          apply mul_lt_mul_of_pos_right hm1 hppos
      _ = 2 ^ (e + 1) := by rw [← zpow_add₀ h2ne]; congr 1; omega
  · have : (m:ℚ) * 2 ^ (e - 52) * 2 ^ ((52:ℤ) - e) = (m:ℚ) := by
      rw [mul_assoc, ← zpow_add₀ h2ne]
      norm_num
    rw [this]
    simp

/-- `0.1` is within half an ulp of `1/10`. -/
theorem pyPointOne_near : |pyPointOne - 1/10| ≤ 1/10 / 2 ^ 53 := by
  have h := roundF_sub_abs_le (1/10 : ℚ)
  rwa [abs_of_pos (by norm_num : (0:ℚ) < 1/10)] at h

/-- `0.1` is a dyadic with a 53-bit significand in the binade of `1/10`. -/
theorem pyPointOne_dyadic : ∃ M : ℤ, (2:ℤ)^52 ≤ M ∧ M < 2^53 ∧
    pyPointOne = (M : ℚ) * 2 ^ ((-4 : ℤ) - 52) := by
  have hq : qlog2 (1/10 : ℚ) = -4 := by
    apply qlog2_eq_of (by norm_num)
    · rw [show ((-4:ℤ)) = -((4:ℕ):ℤ) by norm_num, zpow_neg, zpow_natCast]
      norm_num
    · rw [show ((-4:ℤ) + 1) = -((3:ℕ):ℤ) by norm_num, zpow_neg, zpow_natCast]
      norm_num
  have hs : (1/10 : ℚ) * 2 ^ ((52:ℤ) - -4) = 2 ^ 56 / 10 := by
    rw [show ((52:ℤ) - -4) = ((56:ℕ):ℤ) by norm_num, zpow_natCast]
    ring
  refine ⟨rhe ((1/10 : ℚ) * 2 ^ ((52:ℤ) - -4)), ?_, ?_, ?_⟩
  · have hb := rhe_abs_le ((1/10 : ℚ) * 2 ^ ((52:ℤ) - -4))
    rw [hs, abs_le] at hb
    have : ((2:ℤ)^52 : ℚ) ≤ (rhe ((1/10 : ℚ) * 2 ^ ((52:ℤ) - -4)) : ℚ) := by
      push_cast
      norm_num at hb ⊢
      linarith [hb.1]
    exact_mod_cast this
  · have hb := rhe_abs_le ((1/10 : ℚ) * 2 ^ ((52:ℤ) - -4))
    rw [hs, abs_le] at hb
    have : (rhe ((1/10 : ℚ) * 2 ^ ((52:ℤ) - -4)) : ℚ) < ((2:ℤ)^53 : ℚ) := by
      push_cast
      norm_num at hb ⊢
      linarith [hb.2]
    exact_mod_cast this
  · unfold pyPointOne roundF
    rw [if_neg (by norm_num), if_pos (by norm_num)]
    unfold roundPos
    rw [hq]

/-- `0.1` rounds to itself. -/
theorem roundF_pyPointOne : roundF pyPointOne = pyPointOne := by
  obtain ⟨M, h0, h1, hv⟩ := pyPointOne_dyadic
  rw [hv]
  exact roundF_dyadic h0 h1

/-- Crude bounds on `0.1`. -/
theorem pyPointOne_bounds : 0 < pyPointOne ∧ pyPointOne ≤ 1 := by
  have h := pyPointOne_near
  rw [abs_le] at h
  have hc : (1:ℚ)/10/2^53 ≤ 1/100 := by norm_num
  constructor <;> linarith [h.1, h.2]

/-! ## Lemmas about decimal strings -/

theorem toList_mk (l : List Char) : (String.mk l).toList = l := rfl

theorem toList_append (s t : String) : (s ++ t).toList = s.toList ++ t.toList := by
  cases s
  cases t
  rfl

theorem digitChar_isDig (n : ℕ) : isDig (digitChar n) = true := by
  have h : n % 10 < 10 := Nat.mod_lt _ (by norm_num)
  unfold digitChar
  set m := n % 10 with hm
  clear_value m
  interval_cases m <;> decide

theorem digVal_digitChar (n : ℕ) : digVal (digitChar n) = n % 10 := by
  have h : n % 10 < 10 := Nat.mod_lt _ (by norm_num)
  unfold digitChar
  set m := n % 10 with hm
  clear_value m
  interval_cases m <;> decide

theorem isDig_cases {c : Char} (h : isDig c = true) :
    c = '0' ∨ c = '1' ∨ c = '2' ∨ c = '3' ∨ c = '4' ∨
    c = '5' ∨ c = '6' ∨ c = '7' ∨ c = '8' ∨ c = '9' := by
  simpa [isDig, or_assoc] using h

theorem isDig_not_space {c : Char} (h : isDig c = true) : isPySpace c = false := by
  rcases isDig_cases h with rfl|rfl|rfl|rfl|rfl|rfl|rfl|rfl|rfl|rfl <;> decide

theorem isDig_ne_sign {c : Char} (h : isDig c = true) : c ≠ '-' ∧ c ≠ '+' := by
  rcases isDig_cases h with rfl|rfl|rfl|rfl|rfl|rfl|rfl|rfl|rfl|rfl <;> exact ⟨by decide, by decide⟩

/-- Digit expansion: nonemptiness, digit-ness, and the folded value. -/
theorem natDigitsF_spec : ∀ fuel n, n < fuel →
    natDigitsF fuel n ≠ [] ∧ (natDigitsF fuel n).all isDig = true ∧
    ∀ acc, (natDigitsF fuel n).foldl (fun a c => a * 10 + digVal c) acc =
      acc * 10 ^ (natDigitsF fuel n).length + n := by
  intro fuel
  induction fuel with
  | zero => intro n h; omega
  | succ fuel ih =>
    intro n h
    by_cases hn : n < 10
    · refine ⟨by simp [natDigitsF, hn], by simp [natDigitsF, hn, digitChar_isDig], ?_⟩
      intro acc
      simp [natDigitsF, hn, digVal_digitChar, Nat.mod_eq_of_lt hn]
    · have hq : n / 10 < fuel := by omega
      obtain ⟨ih1, ih2, ih3⟩ := ih (n / 10) hq
      refine ⟨by simp [natDigitsF, hn], ?_, ?_⟩
      · simp [natDigitsF, hn, List.all_append, ih2, digitChar_isDig]
      · intro acc
        simp only [natDigitsF, if_neg hn, List.foldl_append, List.length_append,
                   List.foldl_cons, List.foldl_nil, List.length_cons, List.length_nil,
                   ih3 acc, digVal_digitChar]
        have hpow : 10 ^ ((natDigitsF fuel (n / 10)).length + (0 + 1)) =
            10 ^ (natDigitsF fuel (n / 10)).length * 10 := by ring
        rw [hpow]
        have := Nat.div_add_mod n 10
        ring_nf
        omega

theorem natStr_toList (n : ℕ) : (natStr n).toList = natDigitsF (n + 1) n := rfl

theorem dropWhile_eq_self_of {p : Char → Bool} {l : List Char}
    (h : ∀ c ∈ l, p c = false) : l.dropWhile p = l := by
  cases l with
  | nil => rfl
  | cons c t => simp [List.dropWhile, h c (List.mem_cons_self _ _)]

theorem pyStrip_toList (s : String) (h : ∀ c ∈ s.toList, isPySpace c = false) :
    (pyStrip s).toList = s.toList := by
  unfold pyStrip
  rw [toList_mk]
  rw [dropWhile_eq_self_of h]
  rw [dropWhile_eq_self_of (fun c hc => h c (List.mem_reverse.mp hc))]
  exact List.reverse_reverse _

theorem takeWhile_append_not (p : Char → Bool) (l1 : List Char) (c : Char)
    (l2 : List Char) (h1 : ∀ x ∈ l1, p x = true) (hc : p c = false) :
    (l1 ++ c :: l2).takeWhile p = l1 ∧ (l1 ++ c :: l2).dropWhile p = c :: l2 := by
  induction l1 with
  | nil => simp [List.takeWhile, List.dropWhile, hc]
  | cons x t ih =>
    have hx := h1 x (List.mem_cons_self _ _)
    have ht := ih (fun y hy => h1 y (List.mem_cons_of_mem _ hy))
    simp [List.takeWhile, List.dropWhile, hx, ht.1, ht.2]

/-- The parser reads back exactly the one-decimal strings the tool writes:
`float(decStr k)` is `k/10`. -/
theorem parseDec_decStr (k : ℕ) : parseDec (decStr k) = some ((k : ℚ) / 10) := by
  obtain ⟨hne1, hdig1, hval1⟩ := natDigitsF_spec (k / 10 + 1) (k / 10) (by omega)
  have hmod : k % 10 < 10 := Nat.mod_lt _ (by norm_num)
  have hd2 : natDigitsF (k % 10 + 1) (k % 10) = [digitChar (k % 10)] := by
    simp [natDigitsF, hmod]
  have htl : (decStr k).toList =
      natDigitsF (k / 10 + 1) (k / 10) ++ '.' :: [digitChar (k % 10)] := by
    unfold decStr natStr
    rw [toList_append, toList_append, toList_mk, toList_mk, hd2]
    rw [List.append_assoc]
    rfl
  have hall1 : ∀ x ∈ natDigitsF (k / 10 + 1) (k / 10), isDig x = true :=
    fun x hx => by
      have := List.all_eq_true.mp hdig1 x hx
      simpa using this
  have hnos : ∀ c ∈ (decStr k).toList, isPySpace c = false := by
    rw [htl]
    intro c hc
    rcases List.mem_append.mp hc with h | h
    · exact isDig_not_space (hall1 c h)
    · rcases List.mem_cons.mp h with rfl | h2
      · decide
      · rcases List.mem_cons.mp h2 with rfl | h3
        · exact isDig_not_space (digitChar_isDig _)
        · simp at h3
  obtain ⟨d, ds, hD1⟩ : ∃ d ds,
      natDigitsF (k / 10 + 1) (k / 10) = d :: ds := by
    cases hD : natDigitsF (k / 10 + 1) (k / 10) with
    | nil => exact absurd hD hne1
    | cons d ds => exact ⟨d, ds, rfl⟩
  have hddig : isDig d = true := hall1 d (by rw [hD1]; exact List.mem_cons_self _ _)
  have hdsign := isDig_ne_sign hddig
  unfold parseDec
  rw [pyStrip_toList _ hnos, htl, hD1, List.cons_append]
  simp only [if_neg hdsign.1, if_neg hdsign.2]
  rw [← List.cons_append, ← hD1]
  unfold parseDecCore
  obtain ⟨htake, hdrop⟩ := takeWhile_append_not isDig
    (natDigitsF (k / 10 + 1) (k / 10)) '.' [digitChar (k % 10)] hall1 (by decide)
  rw [htake, hdrop]
  simp only [List.all_cons, List.all_nil, digitChar_isDig, Bool.and_true, Bool.true_and]
  rw [if_pos]
  · have hv1 : (natDigitsF (k / 10 + 1) (k / 10)).foldl
        (fun a c => a * 10 + digVal c) 0 = k / 10 := by
      rw [hval1 0]
      simp
    have hv2 : ([digitChar (k % 10)]).foldl (fun a c => a * 10 + digVal c) 0 = k % 10 := by
      simp [digVal_digitChar, Nat.mod_mod_of_dvd]
    rw [hv1, hv2]
    congr 1
    have hsplit : ((k / 10 : ℕ) : ℚ) + ((k % 10 : ℕ) : ℚ) / 10 ^ ([digitChar (k % 10)]).length
        = (k : ℚ) / 10 := by
      simp only [List.length_cons, List.length_nil, zero_add, pow_one]
      have hk : ((k / 10) * 10 + k % 10 : ℕ) = k := by omega
      field_simp
      exact_mod_cast congrArg (fun n : ℕ => (n : ℚ)) hk
    exact hsplit
  · rw [hD1]
    simp

/-- The bump-then-rollback float round trip reproduces the stored
one-decimal version string for every version below `2^49/10` (`read` the
stored value, add the float `0.1`, subtract it again, format with one
decimal). -/
theorem version_roundtrip (k : ℕ) (hk : k ≤ 2 ^ 49) :
    pyFormat1f (flsub (fladd (read_version (decStr k)) pyPointOne) pyPointOne) = decStr k := by
  have hrv : read_version (decStr k) = roundF ((k : ℚ) / 10) := by
    unfold read_version
    rw [parseDec_decStr k]
  rcases Nat.eq_zero_or_pos k with hk0 | hk1
  · subst hk0
    have hz : roundF (((0:ℕ) : ℚ) / 10) = 0 := by norm_num [roundF]
    rw [hrv, hz]
    unfold fladd flsub
    rw [zero_add, roundF_pyPointOne, sub_self]
    have hz2 : roundF (0:ℚ) = 0 := by norm_num [roundF]
    rw [hz2]
    unfold pyFormat1f
    rw [if_neg (by norm_num)]
    rw [mul_zero, show (0:ℚ) = ((0:ℤ):ℚ) by norm_num, rhe_intCast]
    rfl
  · set A := pyPointOne with hAdef
    set V : ℚ := (k : ℚ) / 10 with hV
    have hkQ : (1:ℚ) ≤ (k:ℚ) := by exact_mod_cast hk1
    have hkQ2 : (k:ℚ) ≤ 2^49 := by exact_mod_cast hk
    have hV1 : 1/10 ≤ V := by rw [hV]; linarith
    have hV2 : V ≤ 2^46 := by rw [hV]; nlinarith
    have hVpos : 0 < V := by linarith
    have hA := pyPointOne_near
    rw [abs_le] at hA
    have hA1 : 0 < A := by
      have : (1:ℚ)/10/2^53 ≤ 1/100 := by norm_num
      linarith [hA.1]
    have hA2 : A ≤ 1/10 + 1/100 := by
      have : (1:ℚ)/10/2^53 ≤ 1/100 := by norm_num
      linarith [hA.2]
    unfold fladd flsub
    rw [hrv]
    set v0 := roundF V with hv0
    set v1 := roundF (v0 + A) with hv1
    set v2 := roundF (v1 - A) with hv2
    have h0 := roundF_sub_abs_le V
    rw [abs_of_pos hVpos] at h0
    have h0b : |v0 - V| ≤ 1/128 := by
      refine le_trans h0 ?_
      rw [div_le_iff₀ (by norm_num : (0:ℚ) < 2^53)] at *
      nlinarith
    rw [abs_le] at h0b
    have h1 := roundF_sub_abs_le (v0 + A)
    have hw1 : |v0 + A| ≤ 2^46 + 2 := by
      rw [abs_le]
      constructor <;> linarith [h0b.1, h0b.2]
    have h1b : |v1 - (v0 + A)| ≤ 1/64 := by
      refine le_trans h1 ?_
      rw [div_le_iff₀ (by norm_num : (0:ℚ) < 2^53)]
      nlinarith [hw1]
    rw [abs_le] at h1b
    have h2 := roundF_sub_abs_le (v1 - A)
    have hw2 : |v1 - A| ≤ 2^46 + 4 := by
      rw [abs_le]
      constructor <;> linarith [h1b.1, h1b.2, h0b.1, h0b.2]
    have h2b : |v2 - (v1 - A)| ≤ 1/64 := by
      refine le_trans h2 ?_
      rw [div_le_iff₀ (by norm_num : (0:ℚ) < 2^53)]
      nlinarith [hw2]
    rw [abs_le] at h2b
    have hfin : |v2 - V| ≤ 5/128 := by
      rw [abs_le]
      constructor <;> linarith [h0b.1, h0b.2, h1b.1, h1b.2, h2b.1, h2b.2]
    rw [abs_le] at hfin
    have hVk : 10 * V = (k : ℚ) := by rw [hV]; ring
    have hrhe : rhe (10 * v2) = (k : ℤ) := by
      apply rhe_eq_of_abs_lt
      have heq : 10 * v2 - ((k:ℤ):ℚ) = 10 * (v2 - V) := by
        push_cast
        rw [← hVk]
        ring
      rw [heq, abs_mul, abs_of_pos (by norm_num : (0:ℚ) < 10)]
      have habs : |v2 - V| ≤ 5/128 := abs_le.mpr ⟨hfin.1, hfin.2⟩
      nlinarith [habs]
    have hv2pos : 0 < v2 := by linarith [hfin.1]
    unfold pyFormat1f
    rw [if_neg (not_lt.mpr (le_of_lt hv2pos)), hrhe]
    simp

/-- `float("9007199254740992.5")` is `2^53` (the `.5` is lost on read). -/
theorem roundF_pow53_half : roundF ((2:ℚ)^(53:ℕ) + 1/2) = 2^(53:ℕ) := by
  have key : roundF ((2:ℚ)^(53:ℕ) + 1/2) = (((2:ℤ)^52 : ℤ) : ℚ) * 2^((53:ℤ) - 52) := by
    apply roundF_eq_of_near
    · norm_num
    · norm_num
    · rw [show ((52:ℤ) - 53) = -1 by norm_num, zpow_neg, zpow_one]
      have : ((2:ℚ)^(53:ℕ) + 1/2) * 2⁻¹ - (((2:ℤ)^52 : ℤ) : ℚ) = 1/4 := by
        push_cast
        ring
      rw [this, abs_of_pos (by norm_num : (0:ℚ) < 1/4)]
      norm_num
  rw [key, show ((53:ℤ) - 52) = 1 by norm_num]
  push_cast
  ring

/-- `2^53 + 0.1` rounds back down to `2^53`. -/
theorem roundF_pow53_add : roundF ((2:ℚ)^(53:ℕ) + pyPointOne) = 2^(53:ℕ) := by
  have hA := pyPointOne_near
  rw [abs_le] at hA
  have hA1 : 0 < pyPointOne ∧ pyPointOne ≤ 1 := pyPointOne_bounds
  have key : roundF ((2:ℚ)^(53:ℕ) + pyPointOne) = (((2:ℤ)^52 : ℤ) : ℚ) * 2^((53:ℤ) - 52) := by
    apply roundF_eq_of_near
    · have : (2:ℚ)^(53:ℤ) = 2^(53:ℕ) := by norm_num
      rw [this]
      linarith [hA1.1]
    · have : (2:ℚ)^((53:ℤ)+1) = 2^(54:ℕ) := by norm_num
      rw [this]
      have : (2:ℚ)^(54:ℕ) = 2^(53:ℕ) + 2^(53:ℕ) := by ring
      rw [this]
      have h2 : (1:ℚ) < 2^(53:ℕ) := by norm_num
      linarith [hA1.2]
    · rw [show ((52:ℤ) - 53) = -1 by norm_num, zpow_neg, zpow_one]
      have heq : ((2:ℚ)^(53:ℕ) + pyPointOne) * 2⁻¹ - (((2:ℤ)^52 : ℤ) : ℚ) = pyPointOne / 2 := by
        push_cast
        ring
      rw [heq, abs_of_pos (by linarith [hA1.1])]
      linarith [hA1.2]
  rw [key, show ((53:ℤ) - 52) = 1 by norm_num]
  push_cast
  ring

/-- `2^53 - 0.1` rounds back up to `2^53`. -/
theorem roundF_pow53_sub : roundF ((2:ℚ)^(53:ℕ) - pyPointOne) = 2^(53:ℕ) := by
  have hA1 : 0 < pyPointOne ∧ pyPointOne ≤ 1 := pyPointOne_bounds
  have key : roundF ((2:ℚ)^(53:ℕ) - pyPointOne) = (((2:ℤ)^53 : ℤ) : ℚ) * 2^((52:ℤ) - 52) := by
    apply roundF_eq_of_near
    · have : (2:ℚ)^(52:ℤ) = 2^(52:ℕ) := by norm_num
      rw [this]
      have : (2:ℚ)^(53:ℕ) = 2^(52:ℕ) + 2^(52:ℕ) := by ring
      rw [this]
      have h2 : (1:ℚ) < 2^(52:ℕ) := by norm_num
      linarith [hA1.2]
    · have : (2:ℚ)^((52:ℤ)+1) = 2^(53:ℕ) := by norm_num
      rw [this]
      linarith [hA1.1]
    · rw [show ((52:ℤ) - 52) = 0 by norm_num, zpow_zero, mul_one]
      have heq : (2:ℚ)^(53:ℕ) - pyPointOne - (((2:ℤ)^53 : ℤ) : ℚ) = -pyPointOne := by
        push_cast
        ring
      rw [heq, abs_neg, abs_of_pos hA1.1]
      have hA := pyPointOne_near
      rw [abs_le] at hA
      have : (1:ℚ)/10/2^53 ≤ 1/100 := by norm_num
      linarith [hA.2]
  rw [key, show ((52:ℤ) - 52) = 0 by norm_num, zpow_zero]
  push_cast
  ring

/-- Formatting `2^53` with one decimal prints `9007199254740992.0`. -/
theorem pyFormat1f_pow53 : pyFormat1f ((2:ℚ)^(53:ℕ)) = decStr 90071992547409920 := by
  unfold pyFormat1f
  rw [if_neg (by norm_num)]
  have hcast : 10 * (2:ℚ)^(53:ℕ) = ((90071992547409920 : ℤ) : ℚ) := by norm_num
  rw [hcast, rhe_intCast]
  rfl

/-- A SHA-1 hex digest always has 40 characters. -/
theorem sha1hex_length (msg : List ℕ) : (sha1hex msg).length = 40 := by
  simp [sha1hex, String.length, toHex8]

/-- C7: the Content Hasher returns a fixed-length (40 hex character) digest
that depends only on the byte content — identical bytes give identical
digests — and for an unreadable file it returns the deterministic sentinel
`"unreadable-" + basename`, so repeated calls on the same unreadable path
agree. -/
theorem hash_file_deterministic (fs : FS) (p q : String) (bs : List ℕ)
    (hp : fs.read p = some bs) (hq : fs.read q = some bs) :
    hash_file fs p = hash_file fs q ∧
    (hash_file fs p).length = 40 ∧
    (∀ (fs2 : FS) (r : String), fs2.read r = none →
      hash_file fs2 r = "unreadable-" ++ basenameStr r) := by
  refine ⟨?_, ?_, ?_⟩
  · simp [hash_file, hp, hq]
  · simp [hash_file, hp, sha1hex_length]
  · intro fs2 r hr
    simp [hash_file, hr]

/-- Witness for C7: determinism and digest length evaluated on a concrete
file system with two byte-identical files. -/
theorem hash_file_deterministic_witness :
    (fsW.read "a.txt" = some [104, 105] ∧ fsW.read "b.txt" = some [104, 105]) ∧
    (hash_file fsW "a.txt" = hash_file fsW "b.txt" ∧
     (hash_file fsW "a.txt").length = 40 ∧
     (∀ (fs2 : FS) (r : String), fs2.read r = none →
       hash_file fs2 r = "unreadable-" ++ basenameStr r)) :=
  ⟨⟨by decide, by decide⟩,
   hash_file_deterministic fsW "a.txt" "b.txt" [104, 105] (by decide) (by decide)⟩

/-- A pattern ending in `/*` contains a wildcard. -/
theorem endsSlashStar_hasWild (pat : List Char) (h : endsSlashStar pat = true) :
    hasWild pat = true := by
  unfold endsSlashStar at h
  cases hr : pat.reverse with
  | nil => rw [hr] at h; simp at h
  | cons a t =>
    cases t with
    | nil => rw [hr] at h; simp at h
    | cons b r =>
      rw [hr] at h
      have ha : a = '*' := by
        have := (Bool.and_eq_true _ _).mp h
        exact of_decide_eq_true this.1
      have hmem : '*' ∈ pat := by
        rw [← List.mem_reverse, hr, ha]
        exact List.mem_cons_self _ _
      exact List.any_eq_true.mpr ⟨'*', hmem, by decide⟩

/-- Dropping all but the last element leaves the last element. -/
theorem drop_length_sub_one (l : List (List Char)) (h : l ≠ []) :
    l.drop (l.length - 1) = [lastComp l] := by
  induction l with
  | nil => exact absurd rfl h
  | cons x t ih =>
    cases t with
    | nil => rfl
    | cons y t2 =>
      have hne : (y :: t2) ≠ ([] : List (List Char)) := by simp
      have : (x :: y :: t2).length - 1 = ((y :: t2).length - 1) + 1 := by
        simp [List.length]
      rw [this, List.drop_succ_cons, ih hne]
      simp [lastComp]

/-- C9: ignore-rule matching, applied per pattern in configured order.
(a) A directory-scoped pattern `dir/*` excludes exactly the paths with a
component equal to `dir`, at any depth.  (b) A wildcard pattern excludes
every path whose filename matches it (slash-free pattern) and every path all
of whose components glob-match the pattern's components (relative-path
match).  (c) Any other pattern excludes exactly the files whose name equals
the pattern. -/
theorem ignore_rule_forms (pat : List Char) (parts : List (List Char))
    (hne : parts ≠ []) :
    (endsSlashStar pat = true →
       (should_ignore_file parts [pat] = true ↔ dropLast2 pat ∈ parts)) ∧
    (endsSlashStar pat = false → hasWild pat = true →
       ((splitSlash pat = [pat] ∧ fnmatchComp (lastComp parts) pat = true) ∨
        ((splitSlash pat).length = parts.length ∧
         compsMatch parts (splitSlash pat) = true)) →
       should_ignore_file parts [pat] = true) ∧
    (hasWild pat = false →
       (should_ignore_file parts [pat] = true ↔ lastComp parts = pat)) := by
  refine ⟨?_, ?_, ?_⟩
  · intro hends
    simp [should_ignore_file, matchesPat, hends, List.any_eq_true, beq_iff_eq]
  · intro hends hwild hcase
    rcases hcase with ⟨hsp, hf⟩ | ⟨hlen, hcm⟩
    · have hlen1 : 1 ≤ parts.length := List.length_pos.mpr hne
      simp [should_ignore_file, matchesPat, hends, hwild, pathMatch, hsp, hlen1,
            drop_length_sub_one parts hne, compsMatch, hf]
    · have hd : parts.length - (splitSlash pat).length = 0 := by omega
      have hppb : (splitSlash pat).isEmpty = false := by
        cases hsp : splitSlash pat with
        | nil =>
          rw [hsp] at hlen
          simp at hlen
          exact absurd (List.length_eq_zero.mp hlen.symm) hne
        | cons q qs => rfl
      simp [should_ignore_file, matchesPat, hends, hwild, pathMatch, hppb, hd,
            hlen.le, hcm]
  · intro hwild
    have hends : endsSlashStar pat = false := by
      cases h : endsSlashStar pat
      · rfl
      · rw [endsSlashStar_hasWild _ h] at hwild; cases hwild
    simp [should_ignore_file, matchesPat, hends, hwild, beq_iff_eq]

/-- Witness for C9: the three rule forms evaluated on the path
`deep/build/x.txt` and the pattern `build/*`. -/
theorem ignore_rule_forms_witness :
    (["deep".toList, "build".toList, "x.txt".toList] ≠ ([] : List (List Char))) ∧
    ((endsSlashStar "build/*".toList = true →
       (should_ignore_file ["deep".toList, "build".toList, "x.txt".toList]
          ["build/*".toList] = true ↔
        dropLast2 "build/*".toList ∈ ["deep".toList, "build".toList, "x.txt".toList])) ∧
     (endsSlashStar "build/*".toList = false → hasWild "build/*".toList = true →
       ((splitSlash "build/*".toList = ["build/*".toList] ∧
         fnmatchComp (lastComp ["deep".toList, "build".toList, "x.txt".toList])
           "build/*".toList = true) ∨
        ((splitSlash "build/*".toList).length =
           (["deep".toList, "build".toList, "x.txt".toList] : List (List Char)).length ∧
         compsMatch ["deep".toList, "build".toList, "x.txt".toList]
           (splitSlash "build/*".toList) = true)) →
       should_ignore_file ["deep".toList, "build".toList, "x.txt".toList]
         ["build/*".toList] = true) ∧
     (hasWild "build/*".toList = false →
       (should_ignore_file ["deep".toList, "build".toList, "x.txt".toList]
          ["build/*".toList] = true ↔
        lastComp ["deep".toList, "build".toList, "x.txt".toList] = "build/*".toList))) :=
  ⟨by decide,
   ignore_rule_forms "build/*".toList ["deep".toList, "build".toList, "x.txt".toList]
     (by decide)⟩

/-! ## Lemmas about the update model's changelog writes -/

theorem lk_setA (p q v : String) (l : List (String × String)) :
    lk p (setA q v l) = if q = p then some v else lk p l := by
  induction l with
  | nil => simp [setA, lk]
  | cons x t ih =>
    obtain ⟨a, b⟩ := x
    by_cases haq : a = q
    · subst haq
      by_cases hap : a = p <;> simp [setA, lk, hap]
    · by_cases hap : a = p
      · have hqp : q ≠ p := fun hh => haq (hap.trans hh.symm)
        have hpq : p ≠ q := fun hh => hqp hh.symm
        simp [setA, lk, haq, hap, hqp, hpq]
      · simp [setA, lk, haq, hap, ih]

theorem getLog_appendLog (logs : List (String × String)) (q e p : String) :
    getLog (appendLog logs q e) p =
      if q = p then getLog logs p ++ e else getLog logs p := by
  unfold getLog appendLog
  rw [lk_setA]
  by_cases h : q = p
  · subst h
    simp [getLog]
  · simp [h]

theorem string_append_empty (a : String) : a ++ "" = a := by
  cases a
  show String.mk _ = _
  rw [List.append_nil]

theorem string_append_assoc (a b c : String) : a ++ b ++ c = a ++ (b ++ c) := by
  cases a
  cases b
  cases c
  show String.mk _ = String.mk _
  rw [List.append_assoc]

theorem logExt_refl (l : List (String × String)) : LogExt l l :=
  fun _ => ⟨"", (string_append_empty _).symm⟩

theorem logExt_trans {l1 l2 l3 : List (String × String)}
    (h12 : LogExt l1 l2) (h23 : LogExt l2 l3) : LogExt l1 l3 := by
  intro p
  obtain ⟨s1, hs1⟩ := h12 p
  obtain ⟨s2, hs2⟩ := h23 p
  exact ⟨s1 ++ s2, by rw [hs2, hs1, string_append_assoc]⟩

theorem logExt_appendLog (logs : List (String × String)) (q e : String) :
    LogExt logs (appendLog logs q e) := by
  intro p
  rw [getLog_appendLog]
  by_cases h : q = p
  · exact ⟨e, by rw [if_pos h]⟩
  · exact ⟨"", by rw [if_neg h, string_append_empty]⟩

theorem pass1_ext (old snap : List (String × String)) (diffOf : String → List String)
    (ioFail : String → Bool) (ver ts : String) :
    ∀ (cur logs : List (String × String)),
      LogExt logs (pass1 old snap diffOf ioFail ver ts logs cur) := by
  intro cur
  induction cur with
  | nil => intro logs; exact logExt_refl logs
  | cons x t ih =>
    intro logs
    obtain ⟨p, h⟩ := x
    cases hlk : lk p old with
    | none =>
      simp only [pass1, hlk]
      exact logExt_trans (logExt_appendLog logs p _) (ih _)
    | some g =>
      simp only [pass1, hlk]
      by_cases hgh : (g != h) = true
      · rw [if_pos hgh]
        by_cases hsnap : (lk p snap).isSome = true
        · rw [if_pos hsnap]
          by_cases hio : ioFail p = true
          · rw [if_pos hio]
            exact logExt_trans (logExt_appendLog logs p _) (ih _)
          · rw [if_neg hio]
            exact logExt_trans (logExt_appendLog logs p _) (ih _)
        · rw [if_neg hsnap]
          exact ih logs
      · rw [if_neg hgh]
        exact ih logs

theorem passDel_ext (cur : List (String × String)) (ver ts : String) :
    ∀ (old logs snap arc : List (String × String)),
      LogExt logs (passDel cur ver ts old logs snap arc).1 := by
  intro old
  induction old with
  | nil => intro logs snap arc; exact logExt_refl logs
  | cons x t ih =>
    intro logs snap arc
    obtain ⟨p, g⟩ := x
    by_cases hcur : (lk p cur).isNone = true
    · cases hsnap : lk p snap with
      | some c =>
        simp only [passDel, if_pos hcur, hsnap]
        exact logExt_trans (logExt_appendLog logs p _) (ih _ _ _)
      | none =>
        simp only [passDel, if_pos hcur, hsnap]
        exact logExt_trans (logExt_appendLog logs p _) (ih _ _ _)
    · simp only [passDel, if_neg hcur]
      exact ih logs snap arc

theorem pass1_id (old snap : List (String × String)) (diffOf : String → List String)
    (ioFail : String → Bool) (ver ts : String) :
    ∀ (cur logs : List (String × String)),
      (∀ pc ∈ cur, lk pc.1 old = some pc.2) →
      pass1 old snap diffOf ioFail ver ts logs cur = logs := by
  intro cur
  induction cur with
  | nil => intro logs _; rfl
  | cons x t ih =>
    intro logs h
    obtain ⟨p, hh⟩ := x
    have hx := h (p, hh) (List.mem_cons_self _ _)
    simp only [pass1, hx, bne_self_eq_false, Bool.false_eq_true, if_false]
    exact ih logs (fun pc hpc => h pc (List.mem_cons_of_mem _ hpc))

theorem passDel_id (cur : List (String × String)) (ver ts : String) :
    ∀ (old logs snap arc : List (String × String)),
      (∀ pg ∈ old, (lk pg.1 cur).isSome = true) →
      passDel cur ver ts old logs snap arc = (logs, snap, arc) := by
  intro old
  induction old with
  | nil => intro logs snap arc _; rfl
  | cons x t ih =>
    intro logs snap arc h
    obtain ⟨p, g⟩ := x
    have hx := h (p, g) (List.mem_cons_self _ _)
    have hnone : (lk p cur).isNone = false := by
      cases hc : lk p cur
      · rw [hc] at hx; simp at hx
      · rfl
    simp only [passDel, hnone, Bool.false_eq_true, if_false]
    exact ih logs snap arc (fun pg hpg => h pg (List.mem_cons_of_mem _ hpg))

/-- C1: if an I/O error occurs during snapshot materialization or the tree
swap inside a commit, the code prints a warning and removes the temp
directory — but then falls through to `save_json(HASHES_FILE,
current_hashes)`, so the new HashIndex IS persisted while the old snapshot
tree (or, after a failed `shutil.move`, no tree at all) remains: Snapshot
Tree and HashIndex observably disagree, contradicting the claim and the
spec's §4.6/§7(e).  This theorem evaluates the embedded `update_gitnot` at a
failing input (`a.txt` modified, copy of file 0 fails; and separately the
`shutil.move` fails). -/
theorem commit_failure_persists_new_hashes :
    ((update_gitnot stC1 [("a.txt", "new content")] (fun _ => "h2") (fun _ => [])
        (fun _ => false) "T" (FailPoint.copyAt 0)).hashes = [("a.txt", "h2")] ∧
     (update_gitnot stC1 [("a.txt", "new content")] (fun _ => "h2") (fun _ => [])
        (fun _ => false) "T" (FailPoint.copyAt 0)).snapshot = [("a.txt", "old content")] ∧
     stC1.hashes ≠ (update_gitnot stC1 [("a.txt", "new content")] (fun _ => "h2")
        (fun _ => []) (fun _ => false) "T" (FailPoint.copyAt 0)).hashes) ∧
    ((update_gitnot stC1 [("a.txt", "new content")] (fun _ => "h2") (fun _ => [])
        (fun _ => false) "T" FailPoint.moveTemp).hashes = [("a.txt", "h2")] ∧
     (update_gitnot stC1 [("a.txt", "new content")] (fun _ => "h2") (fun _ => [])
        (fun _ => false) "T" FailPoint.moveTemp).snapshotExists = false) :=
  ⟨⟨by decide, by rfl, by decide⟩, by decide, by rfl⟩

/-- C6 (amended): the committing update only ever appends to changelog
files: after any `update_gitnot` run — any inputs, any failure point — every
path's changelog content is its previous content followed by a suffix, and
in particular no entry is rewritten or deleted and a deleted file's history
is preserved.  (The claim's "every operation" is too strong: `--init` opens
changelogs with mode `'w'` and overwrites them, see the counterexample.) -/
theorem update_changelogs_append_only (st : UpdState)
    (curFiles : List (String × String)) (hashOf : String → String)
    (diffOf : String → List String) (ioFail : String → Bool) (ts : String)
    (fail : FailPoint) (p : String) :
    ∃ s, getLog (update_gitnot st curFiles hashOf diffOf ioFail ts fail).changelogs p =
      getLog st.changelogs p ++ s := by
  have hext : LogExt st.changelogs
      (passDel (curFiles.map (fun pc => (pc.1, hashOf pc.1)))
        (pyFormat1f (fladd (read_version st.version) pyPointOne)) ts st.hashes
        (pass1 st.hashes st.snapshot diffOf ioFail
          (pyFormat1f (fladd (read_version st.version) pyPointOne)) ts st.changelogs
          (curFiles.map (fun pc => (pc.1, hashOf pc.1))))
        st.snapshot st.deletedArc).1 :=
    logExt_trans (pass1_ext _ _ _ _ _ _ _ _) (passDel_ext _ _ _ _ _ _ _)
  simp only [update_gitnot]
  split_ifs with h1 h2 h3
  · exact logExt_refl st.changelogs p
  · exact hext p
  · cases fail with
    | copyAt n =>
      by_cases hn : n < curFiles.length
      · simp only [if_pos hn]
        exact hext p
      · simp only [if_neg hn]
        exact hext p
    | rmtreeOld => exact hext p
    | moveTemp => exact hext p
    | noFail => exact hext p
  · exact hext p

/-- Counterexample to C6 as stated: re-running `--init` opens an existing
changelog with mode `'w'` and replaces its content with the seed marker —
the prior content `"OLD"` is not preserved as a prefix, so init rewrites
existing changelog entries. -/
theorem init_rewrites_changelog :
    getLog (init_changelogs ["a.txt"] [("a.txt", "OLD")]) "a.txt" =
      "# a.txt — original v0.1\n" ∧
    ¬ ∃ s : String, getLog (init_changelogs ["a.txt"] [("a.txt", "OLD")]) "a.txt" =
      getLog [("a.txt", "OLD")] "a.txt" ++ s := by
  refine ⟨rfl, ?_⟩
  rintro ⟨s, hs⟩
  rw [show getLog [("a.txt", "OLD")] "a.txt" = "OLD" from rfl] at hs
  have h2 : (("OLD".toList).isPrefixOf
      (getLog (init_changelogs ["a.txt"] [("a.txt", "OLD")]) "a.txt").toList) = true := by
    rw [hs, toList_append, List.isPrefixOf_iff_prefix]
    exact List.prefix_append _ _
  rw [show getLog (init_changelogs ["a.txt"] [("a.txt", "OLD")]) "a.txt" =
      "# a.txt — original v0.1\n" from rfl] at h2
  exact absurd h2 (by decide)

/-- The roll back of the tentatively bumped version fails to reproduce the
stored content for the one-decimal version `9007199254740992.5`: reading it
already loses the `.5` to binary64 rounding and the rewritten file reads
`9007199254740992.0`. -/
theorem version_roundtrip_big :
    pyFormat1f (flsub (fladd (read_version (decStr 90071992547409925)) pyPointOne)
      pyPointOne) = decStr 90071992547409920 := by
  have h1 : read_version (decStr 90071992547409925) = roundF ((2:ℚ)^(53:ℕ) + 1/2) := by
    unfold read_version
    rw [parseDec_decStr]
    norm_num
  rw [h1, roundF_pow53_half]
  unfold fladd
  rw [roundF_pow53_add]
  unfold flsub
  rw [roundF_pow53_sub, pyFormat1f_pow53]

/-- C5 (amended): a commit attempt that detects zero changes (empty added,
modified and deleted sets) leaves the entire persisted state byte-for-byte
unchanged — version.txt, hash index, snapshot tree, deleted archive and
changelogs — provided the stored one-decimal version is below `2^49/10`
(beyond the binary64 integer range the version string itself is not
reproduced; see the counterexample). -/
theorem no_change_rollback (st : UpdState) (curFiles : List (String × String))
    (hashOf : String → String) (diffOf : String → List String)
    (ioFail : String → Bool) (ts : String) (fail : FailPoint) (k : ℕ)
    (hinit : st.initialized = true)
    (hver : st.version = decStr k)
    (hk : k ≤ 2 ^ 49)
    (hadd : addedOf st.hashes (curFiles.map (fun pc => (pc.1, hashOf pc.1))) = [])
    (hmod : modifiedOf st.hashes (curFiles.map (fun pc => (pc.1, hashOf pc.1))) = [])
    (hdel : deletedOf st.hashes (curFiles.map (fun pc => (pc.1, hashOf pc.1))) = []) :
    update_gitnot st curFiles hashOf diffOf ioFail ts fail = st := by
  have hcur : ∀ pc ∈ curFiles.map (fun pc => (pc.1, hashOf pc.1)),
      lk pc.1 st.hashes = some pc.2 := by
    rintro ⟨p, h⟩ hm
    cases hlk : lk p st.hashes with
    | none =>
      exfalso
      have hmem : p ∈ addedOf st.hashes (curFiles.map (fun pc => (pc.1, hashOf pc.1))) :=
        mem_addedOf.mpr ⟨h, hm, hlk⟩
      rw [hadd] at hmem
      simp at hmem
    | some g =>
      by_cases hgh : g = h
      · exact congrArg some hgh
      · exfalso
        have hmem : p ∈ modifiedOf st.hashes (curFiles.map (fun pc => (pc.1, hashOf pc.1))) :=
          mem_modifiedOf.mpr ⟨h, g, hm, hlk, hgh⟩
        rw [hmod] at hmem
        simp at hmem
  have hold : ∀ pg ∈ st.hashes,
      (lk pg.1 (curFiles.map (fun pc => (pc.1, hashOf pc.1)))).isSome = true := by
    rintro ⟨p, g⟩ hm
    cases hlk : lk p (curFiles.map (fun pc => (pc.1, hashOf pc.1))) with
    | none =>
      exfalso
      have hmem : p ∈ deletedOf st.hashes (curFiles.map (fun pc => (pc.1, hashOf pc.1))) :=
        mem_deletedOf.mpr ⟨g, hm, hlk⟩
      rw [hdel] at hmem
      simp at hmem
    | some c => rfl
  have h1 := pass1_id st.hashes st.snapshot diffOf ioFail
    (pyFormat1f (fladd (read_version st.version) pyPointOne)) ts
    (curFiles.map (fun pc => (pc.1, hashOf pc.1))) st.changelogs hcur
  have h2 := passDel_id (curFiles.map (fun pc => (pc.1, hashOf pc.1)))
    (pyFormat1f (fladd (read_version st.version) pyPointOne)) ts
    st.hashes st.changelogs st.snapshot st.deletedArc hold
  have hvfinal : pyFormat1f (flsub (fladd (read_version st.version) pyPointOne)
      pyPointOne) = st.version := by
    rw [hver]
    exact version_roundtrip k hk
  simp only [update_gitnot]
  rw [if_neg (show ¬ st.initialized = false by rw [hinit]; simp)]
  rw [if_pos ⟨hadd, hmod, hdel⟩, h1, h2]
  obtain ⟨i, v, h, se, sn, da, cl⟩ := st
  simp only at hvfinal ⊢
  rw [hvfinal]

/-- Witness for C5 (amended): the zero-change rollback evaluated on a
concrete initialized state at version `0.3`. -/
theorem no_change_rollback_witness :
    (stW5.initialized = true ∧ stW5.version = decStr 3 ∧ 3 ≤ 2 ^ 49 ∧
     addedOf stW5.hashes ([("a.txt", "c")].map
       (fun pc => (pc.1, (fun _ => "h") pc.1))) = [] ∧
     modifiedOf stW5.hashes ([("a.txt", "c")].map
       (fun pc => (pc.1, (fun _ => "h") pc.1))) = [] ∧
     deletedOf stW5.hashes ([("a.txt", "c")].map
       (fun pc => (pc.1, (fun _ => "h") pc.1))) = []) ∧
    update_gitnot stW5 [("a.txt", "c")] (fun _ => "h") (fun _ => [])
      (fun _ => false) "T" FailPoint.noFail = stW5 :=
  ⟨⟨by decide, by decide, by decide, by decide, by decide, by decide⟩,
   no_change_rollback stW5 [("a.txt", "c")] (fun _ => "h") (fun _ => [])
     (fun _ => false) "T" FailPoint.noFail 3 (by decide) (by decide) (by decide)
     (by decide) (by decide) (by decide)⟩

/-- Counterexample to C5 as stated: with the stored one-decimal version
`9007199254740992.5`, a zero-change commit does not leave version.txt
byte-for-byte unchanged — the rollback writes `9007199254740992.0`. -/
theorem no_change_rollback_counterexample :
    update_gitnot stBig [] (fun _ => "") (fun _ => []) (fun _ => false) "T"
      FailPoint.noFail ≠ stBig ∧
    (update_gitnot stBig [] (fun _ => "") (fun _ => []) (fun _ => false) "T"
      FailPoint.noFail).version = decStr 90071992547409920 ∧
    stBig.version = decStr 90071992547409925 := by
  have hres : update_gitnot stBig [] (fun _ => "") (fun _ => []) (fun _ => false) "T"
      FailPoint.noFail = { stBig with
        version := pyFormat1f (flsub (fladd (read_version stBig.version) pyPointOne)
          pyPointOne) } := by
    rfl
  have hv : pyFormat1f (flsub (fladd (read_version stBig.version) pyPointOne)
      pyPointOne) = decStr 90071992547409920 := by
    rw [show stBig.version = decStr 90071992547409925 from rfl]
    exact version_roundtrip_big
  refine ⟨?_, ?_, rfl⟩
  · rw [hres]
    intro hcon
    have hver := congrArg UpdState.version hcon
    simp only at hver
    rw [hv] at hver
    rw [show stBig.version = decStr 90071992547409925 from rfl] at hver
    exact absurd hver (by decide)
  · rw [hres]
    simp only
    exact hv

/-- Witness for C8 (amended): a well-formed header resets the counters to its
start lines, evaluated concretely. -/
theorem hunk_header_reset_witness :
    (pySplitWs "@@ -12,3 +45,6 @@" = ["@@", "-12,3", "+45,6", "@@"] ∧
     pyInt (drop1 (takeBeforeComma "-12,3")) = some 12 ∧
     pyInt (drop1 (takeBeforeComma "+45,6")) = some 45) ∧
    hunkApply "@@ -12,3 +45,6 @@" initDiffSt =
      { initDiffSt with old_ln := 12, new_ln := 45 } :=
  ⟨⟨by decide, by decide, by decide⟩,
   hunk_header_reset.1 "@@ -12,3 +45,6 @@" initDiffSt "@@" "-12,3" "+45,6" ["@@"] 12 45
     (by decide) (by decide) (by decide)⟩

end Gitnot


